import Mathlib

/-!
Shallow embedding of the resource-allocation alternative-generation engine
(`lab2/algorithms.py`).  Python floats are modelled as rationals (`ℚ`); the
builtin `round(x, 1)` is modelled as exact rounding of `10*x` to the nearest
integer with ties to even, divided by 10.  Python dicts (insertion ordered,
last write wins) are modelled as association lists over `Int` keys.  The two
`while` loops of the source (strategies 4 and 5) are modelled with an explicit
fuel parameter; a `Bool` flag records whether every loop exited by its own
condition within the given fuel.
-/

namespace DSS

/-- `Resource` input record: `id`, `name`, `type`, `available_hours`. -/
structure Resource where
  id : Int
  name : String
  type : String
  available_hours : ℚ
deriving DecidableEq

/-- `Task` input record: `id`, `title`, `required_hours`, `priority`. -/
structure Task where
  id : Int
  title : String
  required_hours : ℚ
  priority : Int
deriving DecidableEq

/-- One allocation record `{"resource_id": _, "task_id": _, "hours": _}`. -/
structure Allocation where
  resource_id : Int
  task_id : Int
  hours : ℚ
deriving DecidableEq

/-- One alternative `{"explanation": _, "score": _, "allocations": _}`. -/
structure Alternative where
  explanation : String
  score : ℚ
  allocations : List Allocation
deriving DecidableEq

/-! ### Python dict model: association lists over `Int` keys -/

/-- `d[k]` with default `0` (lookups in the source only hit existing keys). -/
def lookupQ : List (Int × ℚ) → Int → ℚ
  | [], _ => 0
  | (k, v) :: rest, key => if k = key then v else lookupQ rest key

/-- `d[k] = v`: replace the first binding of `k`, or append a new one. -/
def setQ : List (Int × ℚ) → Int → ℚ → List (Int × ℚ)
  | [], key, v => [(key, v)]
  | (k, w) :: rest, key, v =>
      if k = key then (k, v) :: rest else (k, w) :: setQ rest key v

/-- `d.setdefault(k, 0); d[k] += v` (the accumulate-into-dict idiom). -/
def bumpQ : List (Int × ℚ) → Int → ℚ → List (Int × ℚ)
  | [], key, v => [(key, v)]
  | (k, w) :: rest, key, v =>
      if k = key then (k, w + v) :: rest else (k, w) :: bumpQ rest key v

/-- `{r.id: r.available_hours for r in resources}`. -/
def initHours (resources : List Resource) : List (Int × ℚ) :=
  resources.foldl (fun d r => setQ d r.id r.available_hours) []

/-- `{r.id: 0.0 for r in resources}`. -/
def initAllocated (resources : List Resource) : List (Int × ℚ) :=
  resources.foldl (fun d r => setQ d r.id 0) []

/-- `{t.id: t.required_hours for t in tasks}`. -/
def initReq (tasks : List Task) : List (Int × ℚ) :=
  tasks.foldl (fun d t => setQ d t.id t.required_hours) []

/-! ### `round(x, 1)` model -/

/-- Round a rational to the nearest integer, ties to even. -/
def roundHalfEven (q : ℚ) : Int :=
  let f := ⌊q⌋
  let r := q - f
  if r < 1/2 then f
  else if 1/2 < r then f + 1
  else if f % 2 = 0 then f else f + 1

/-- `round(x, 1)`: one decimal place. -/
def round1 (q : ℚ) : ℚ := (roundHalfEven (q * 10) : ℚ) / 10

/-! ### Stable sort (model of Python `sorted` / `list.sort`) -/

/-- Insert `x` before the first element `y` with `le x y`. -/
def sortedInsert (le : α → α → Bool) (x : α) : List α → List α
  | [] => [x]
  | y :: ys => if le x y then x :: y :: ys else y :: sortedInsert le x ys

/-- Stable insertion sort: equal elements keep their input order, like
Python's `sorted`. -/
def stableSort (le : α → α → Bool) : List α → List α
  | [] => []
  | x :: xs => sortedInsert le x (stableSort le xs)

/-- `sorted(tasks, key=lambda t: t.priority)`. -/
def sortByPriority (tasks : List Task) : List Task :=
  stableSort (fun a b => decide (a.priority ≤ b.priority)) tasks

/-- `sorted(tasks, key=lambda t: (t.priority, -t.required_hours))`. -/
def sortByPrioritySize (tasks : List Task) : List Task :=
  stableSort
    (fun a b =>
      decide (a.priority < b.priority ∨
        (a.priority = b.priority ∧ b.required_hours ≤ a.required_hours)))
    tasks

/-! ### Shared allocation state -/

/-- Mutable state of one strategy run: the remaining-capacity dict
`resource_hours`, the load dict `resource_allocated`, the allocation list and
the running `total_allocated`. -/
structure AState where
  hours : List (Int × ℚ)
  alloc : List (Int × ℚ)
  allocs : List Allocation
  total : ℚ
deriving DecidableEq

/-- Initial state of a strategy run. -/
def initState (resources : List Resource) : AState :=
  ⟨initHours resources, initAllocated resources, [], 0⟩

/-- Commit `h` hours of resource `rid` to task `tid`: append the allocation
record, decrement remaining capacity, increment current load and total. -/
def commit (st : AState) (rid tid : Int) (h : ℚ) : AState :=
  { hours := setQ st.hours rid (lookupQ st.hours rid - h)
    alloc := setQ st.alloc rid (lookupQ st.alloc rid + h)
    allocs := st.allocs ++ [⟨rid, tid, h⟩]
    total := st.total + h }

/-- `sum(a["hours"] for a in allocations if a["resource_id"] == rid)`. -/
def hoursSumRes (allocs : List Allocation) (rid : Int) : ℚ :=
  ((allocs.filter (fun a => a.resource_id = rid)).map Allocation.hours).sum

/-- `sum(a["hours"] for a in allocations if a["task_id"] == tid)`. -/
def hoursSumTask (allocs : List Allocation) (tid : Int) : ℚ :=
  ((allocs.filter (fun a => a.task_id = tid)).map Allocation.hours).sum

/-- `sum(a["hours"] for a in allocations)`. -/
def sumHours (allocs : List Allocation) : ℚ := (allocs.map Allocation.hours).sum

/-- `sum(t.required_hours for t in tasks)`. -/
def totalRequired (tasks : List Task) : ℚ := (tasks.map Task.required_hours).sum

/-- `sum(r.available_hours for r in resources)`. -/
def totalAvailable (resources : List Resource) : ℚ :=
  (resources.map Resource.available_hours).sum

/-! ### Strategy 1: `_priority_based_allocation` -/

/-- The inner resource walk of strategy 1 (and of strategy 3's first-fit
shape): for each resource in order, if need remains and the resource has
spare capacity, commit `min(remaining_need, resource_hours[r.id])`. -/
def walkResources (tid : Int) : List Resource → ℚ → AState → AState
  | [], _, st => st
  | r :: rest, need, st =>
    if need ≤ 0 then st
    else if 0 < lookupQ st.hours r.id then
      let h := min need (lookupQ st.hours r.id)
      walkResources tid rest (need - h) (commit st r.id tid h)
    else walkResources tid rest need st

/-- Full allocation run of strategy 1. -/
def priorityRun (resources : List Resource) (tasks : List Task) : AState :=
  (sortByPriority tasks).foldl
    (fun st t => walkResources t.id resources (lookupQ (initReq tasks) t.id) st)
    (initState resources)

/-- The raw allocations of strategy 1. -/
def priorityAllocations (resources : List Resource) (tasks : List Task) :
    List Allocation :=
  (priorityRun resources tasks).allocs

/-- `coverage` of strategy 1. -/
def coverage_priority (resources : List Resource) (tasks : List Task) : ℚ :=
  if 0 < totalRequired tasks then
    (priorityRun resources tasks).total / totalRequired tasks
  else 0

/-- The `priority_coverage` dict of strategy 1. -/
def priorityCoverageDict (allocs : List Allocation) : List (Int × ℚ) :=
  allocs.foldl (fun d a => bumpQ d a.task_id a.hours) []

/-- `priority_bonus` of strategy 1. -/
def priorityBonus (resources : List Resource) (tasks : List Task) : ℚ :=
  if tasks.isEmpty then 0
  else
    ((sortByPriority tasks).map (fun t =>
        ((6 - t.priority : Int) : ℚ) *
          min 1 (lookupQ (priorityCoverageDict (priorityAllocations resources tasks)) t.id /
            t.required_hours))).sum / (tasks.length : ℚ)

/-- `overload_penalty` of strategy 1. -/
def overloadPenalty_priority (resources : List Resource) (tasks : List Task) : ℚ :=
  if 0 < totalRequired tasks then
    ((resources.map (fun r =>
        max 0 (hoursSumRes (priorityAllocations resources tasks) r.id -
          r.available_hours))).sum) / totalRequired tasks
  else 0

/-- `score` of strategy 1 (floored at 0). -/
def score_priority (resources : List Resource) (tasks : List Task) : ℚ :=
  max 0 (coverage_priority resources tasks * 50 +
    priorityBonus resources tasks * 20 -
    overloadPenalty_priority resources tasks * 30)

/-- The alternative produced by strategy 1 (the formatted Russian explanation
text is abstracted to a constant tag; no claim depends on it). -/
def alt_priority (resources : List Resource) (tasks : List Task) : Alternative :=
  ⟨"priority based allocation", score_priority resources tasks,
    priorityAllocations resources tasks⟩

/-! ### Strategy 2: `_balanced_allocation` -/

/-- `{t.id: t.required_hours / total_required for t in tasks}`. -/
def taskProportions (tasks : List Task) : List (Int × ℚ) :=
  tasks.foldl (fun d t => setQ d t.id (t.required_hours / totalRequired tasks)) []

/-- Inner resource walk of strategy 2: commit up to the task's proportional
share, tracked by the local accumulator `allocated_to_task`. -/
def balancedWalk (tid : Int) (share : ℚ) :
    List Resource → ℚ → AState → AState
  | [], _, st => st
  | r :: rest, done, st =>
    if share ≤ done then st
    else if 0 < lookupQ st.hours r.id then
      let need := share - done
      let h := min need (lookupQ st.hours r.id)
      balancedWalk tid share rest (done + h) (commit st r.id tid h)
    else balancedWalk tid share rest done st

/-- Full allocation run of strategy 2 (tasks walked in input order). -/
def balancedRun (resources : List Resource) (tasks : List Task) : AState :=
  tasks.foldl
    (fun st t =>
      balancedWalk t.id (lookupQ (taskProportions tasks) t.id * totalAvailable resources)
        resources 0 st)
    (initState resources)

/-- Raw allocations of strategy 2. -/
def balancedAllocations (resources : List Resource) (tasks : List Task) :
    List Allocation :=
  (balancedRun resources tasks).allocs

/-- `coverage` of strategy 2. -/
def coverage_balanced (resources : List Resource) (tasks : List Task) : ℚ :=
  if 0 < totalRequired tasks then
    (balancedRun resources tasks).total / totalRequired tasks
  else 0

/-- `_calculate_balance_variance`: normalized variance of per-resource
utilization, clamped to `[0, 1]`. -/
def balanceVariance (resources : List Resource) (allocs : List Allocation) : ℚ :=
  let load := allocs.foldl (fun d a => bumpQ d a.resource_id a.hours)
    (initAllocated resources)
  let loads := resources.map (fun r =>
    if 0 < r.available_hours then lookupQ load r.id / r.available_hours else 0)
  if loads.isEmpty then 0
  else
    let mean := loads.sum / (loads.length : ℚ)
    min 1 ((loads.map (fun l => (l - mean) * (l - mean))).sum / (loads.length : ℚ))

/-- `task_coverage` dict of strategy 2. -/
def taskCoverageDict (allocs : List Allocation) : List (Int × ℚ) :=
  allocs.foldl (fun d a => bumpQ d a.task_id a.hours) []

/-- `task_coverage_variance` of strategy 2. -/
def taskCoverageVariance (resources : List Resource) (tasks : List Task) : ℚ :=
  if tasks.isEmpty then 0
  else
    let tc := taskCoverageDict (balancedAllocations resources tasks)
    let rl := tasks.map (fun t => lookupQ tc t.id / t.required_hours)
    let mean := rl.sum / (rl.length : ℚ)
    (rl.map (fun x => (x - mean) * (x - mean))).sum / (rl.length : ℚ)

/-- `score` of strategy 2. -/
def score_balanced (resources : List Resource) (tasks : List Task) : ℚ :=
  coverage_balanced resources tasks * 40 +
    (1 - balanceVariance resources (balancedAllocations resources tasks)) * 25 +
    (1 - min 1 (taskCoverageVariance resources tasks)) * 15

/-- Strategy 2's result: `None` when total availability or total demand is 0. -/
def alt_balanced (resources : List Resource) (tasks : List Task) :
    Option Alternative :=
  if totalAvailable resources = 0 ∨ totalRequired tasks = 0 then none
  else some ⟨"balanced allocation", score_balanced resources tasks,
    balancedAllocations resources tasks⟩

/-! ### Strategy 3: `_specialization_based_allocation` -/

/-- The static resource-type → keyword table (`type_matching`). -/
def typeMatching : List (String × List String) :=
  [("разработчик", ["разработка", "код", "программирование", "функционал", "система"]),
   ("дизайнер", ["дизайн", "интерфейс", "ui", "ux", "макет"]),
   ("тестировщик", ["тестирование", "тест", "проверка", "qa"]),
   ("аналитик", ["анализ", "требования", "документация", "исследование"]),
   ("менеджер проекта", ["проект", "управление", "координация", "планирование"])]

/-- Python `str.lower` restricted to the alphabets the table uses
(ASCII and Russian Cyrillic). -/
def charLowerRu (c : Char) : Char :=
  if 0x410 ≤ c.toNat ∧ c.toNat ≤ 0x42F then Char.ofNat (c.toNat + 0x20)
  else if c.toNat = 0x401 then Char.ofNat 0x451
  else c.toLower

/-- Lower-case a whole string. -/
def strLower (s : String) : String := String.mk (s.toList.map charLowerRu)

/-- Does the first character list start with the second argument's prefix
pattern (needle first)? -/
def charsStartWith : List Char → List Char → Bool
  | [], _ => true
  | _ :: _, [] => false
  | a :: as, b :: bs => a == b && charsStartWith as bs

/-- Does the haystack contain the needle as a contiguous run? -/
def charsContain : List Char → List Char → Bool
  | n, [] => n.isEmpty
  | n, c :: rest => charsStartWith n (c :: rest) || charsContain n rest

/-- Python's substring test `needle in haystack`. -/
def substrIn (needle haystack : String) : Bool :=
  charsContain needle.toList haystack.toList

/-- The suitable resource types for a task title: table entries one of whose
keywords occurs in the lower-cased title. -/
def suitableTypes (title : String) : List String :=
  (typeMatching.filter (fun p => p.2.any (fun kw => substrIn kw (strLower title)))).map
    Prod.fst

/-- `resources_by_type`: group resources by `type`, insertion-ordered. -/
def addByType (d : List (String × List Resource)) (r : Resource) :
    List (String × List Resource) :=
  match d with
  | [] => [(r.type, [r])]
  | (ty, l) :: rest =>
      if ty = r.type then (ty, l ++ [r]) :: rest else (ty, l) :: addByType rest r

/-- Build the `resources_by_type` dict. -/
def resourcesByType (resources : List Resource) : List (String × List Resource) :=
  resources.foldl addByType []

/-- Look a type up in `resources_by_type`. -/
def lookupType (d : List (String × List Resource)) (ty : String) :
    Option (List Resource) :=
  match d with
  | [] => none
  | (k, l) :: rest => if k = ty then some l else lookupType rest ty

/-- `resources_to_try`: resources of the suitable types in table order, or
every resource when no type matched. -/
def resourcesToTry (resources : List Resource) (suitable : List String) :
    List Resource :=
  if suitable.isEmpty then resources
  else
    suitable.foldl (fun acc ty =>
      match lookupType (resourcesByType resources) ty with
      | some l => acc ++ l
      | none => acc) []

/-- First pass of strategy 3 over `resources_to_try`; also counts type
matches.  Returns the remaining need, the state and the match counter. -/
def specWalk1 (tid : Int) (suitable : List String) :
    List Resource → ℚ → AState → Nat → ℚ × AState × Nat
  | [], need, st, m => (need, st, m)
  | r :: rest, need, st, m =>
    if need ≤ 0 then (need, st, m)
    else if 0 < lookupQ st.hours r.id then
      let h := min need (lookupQ st.hours r.id)
      specWalk1 tid suitable rest (need - h)
        (commit st r.id tid h) (if r.type ∈ suitable then m + 1 else m)
    else specWalk1 tid suitable rest need st m

/-- Second pass of strategy 3: resources not already tried. -/
def specWalk2 (tid : Int) (toTry : List Resource) :
    List Resource → ℚ → AState → ℚ × AState
  | [], need, st => (need, st)
  | r :: rest, need, st =>
    if need ≤ 0 then (need, st)
    else if 0 < lookupQ st.hours r.id ∧ r ∉ toTry then
      let h := min need (lookupQ st.hours r.id)
      specWalk2 tid toTry rest (need - h) (commit st r.id tid h)
    else specWalk2 tid toTry rest need st

/-- Process one task in strategy 3. -/
def specTask (resources : List Resource) (reqs : List (Int × ℚ))
    (stm : AState × Nat) (t : Task) : AState × Nat :=
  let suitable := suitableTypes t.title
  let toTry := resourcesToTry resources suitable
  let r1 := specWalk1 t.id suitable toTry (lookupQ reqs t.id) stm.1 stm.2
  if 0 < r1.1 then ((specWalk2 t.id toTry resources r1.1 r1.2.1).2, r1.2.2)
  else (r1.2.1, r1.2.2)

/-- Full run of strategy 3: final state and `type_matches` counter. -/
def specRun (resources : List Resource) (tasks : List Task) : AState × Nat :=
  (sortByPrioritySize tasks).foldl (specTask resources (initReq tasks))
    (initState resources, 0)

/-- Raw allocations of strategy 3. -/
def specAllocations (resources : List Resource) (tasks : List Task) :
    List Allocation :=
  (specRun resources tasks).1.allocs

/-- `coverage` of strategy 3. -/
def coverage_spec (resources : List Resource) (tasks : List Task) : ℚ :=
  if 0 < totalRequired tasks then
    (specRun resources tasks).1.total / totalRequired tasks
  else 0

/-- `type_diversity` of strategy 3: distinct types among used resources. -/
def typeDiversity (resources : List Resource) (allocs : List Allocation) : ℚ :=
  (((resources.filter (fun r => allocs.any (fun a => a.resource_id = r.id))).map
    Resource.type).dedup.length : ℚ)

/-- `match_ratio` of strategy 3. -/
def matchFraction (resources : List Resource) (tasks : List Task) : ℚ :=
  let allocs := specAllocations resources tasks
  if allocs.isEmpty then 0
  else ((specRun resources tasks).2 : ℚ) / (allocs.length : ℚ)

/-- `score` of strategy 3 (the conditional expression of the source binds the
whole `coverage*40 + diversity*20` sum). -/
def score_spec (resources : List Resource) (tasks : List Task) : ℚ :=
  (if (resourcesByType resources).isEmpty then coverage_spec resources tasks * 40
   else coverage_spec resources tasks * 40 +
     typeDiversity resources (specAllocations resources tasks) /
       ((resourcesByType resources).length : ℚ) * 20) +
  matchFraction resources tasks * 15

/-- The alternative produced by strategy 3. -/
def alt_spec (resources : List Resource) (tasks : List Task) : Alternative :=
  ⟨"specialization based allocation", score_spec resources tasks,
    specAllocations resources tasks⟩

/-! ### Strategy 4: `_minimize_overload_allocation` -/

/-- The state of one `while remaining_need > 0` loop. -/
structure LState where
  need : ℚ
  st : AState
deriving DecidableEq

/-- Result of one loop iteration: exit by the loop's own condition (`done`)
or continue (`cont`). -/
inductive StepRes where
  | done : LState → StepRes
  | cont : LState → StepRes
deriving DecidableEq

/-- One iteration of strategy 4's while loop: among resources under the
`1.2 * ideal` load cap pick the least loaded (falling back to any resource
with spare capacity), and commit
`min(remaining_need, resource_hours, 1.2*ideal - current_load)` — the cap
term is applied in both cases, exactly as in the source. -/
def overloadStep (resources : List Resource) (ideal : ℚ) (tid : Int)
    (ls : LState) : StepRes :=
  if ls.need ≤ 0 then .done ls
  else
    let capped := resources.filter (fun r =>
      decide (0 < lookupQ ls.st.hours r.id) &&
        decide (lookupQ ls.st.alloc r.id < ideal * (6/5)))
    let avail :=
      if capped.isEmpty then
        resources.filter (fun r => decide (0 < lookupQ ls.st.hours r.id))
      else capped
    match avail with
    | [] => .done ls
    | r0 :: rest =>
      let best := rest.foldl (fun b r =>
        if lookupQ ls.st.alloc r.id < lookupQ ls.st.alloc b.id then r else b) r0
      let h := min ls.need (min (lookupQ ls.st.hours best.id)
        (ideal * (6/5) - lookupQ ls.st.alloc best.id))
      if 0 < h then .cont ⟨ls.need - h, commit ls.st best.id tid h⟩
      else .cont ls

/-- Fuel-indexed run of strategy 4's while loop; the flag is `true` iff the
loop exited by its own condition within the given fuel. -/
def overloadLoop (resources : List Resource) (ideal : ℚ) (tid : Int) :
    Nat → LState → LState × Bool
  | 0, ls => (ls, false)
  | fuel + 1, ls =>
    match overloadStep resources ideal tid ls with
    | .done ls' => (ls', true)
    | .cont ls' => overloadLoop resources ideal tid fuel ls'

/-- `ideal_load_per_resource`. -/
def idealLoad (resources : List Resource) (tasks : List Task) : ℚ :=
  if resources.isEmpty then 0 else totalRequired tasks / (resources.length : ℚ)

/-- Full run of strategy 4: final state and a flag telling whether every
task's loop terminated by its own condition within the fuel. -/
def overloadRun (fuel : Nat) (resources : List Resource) (tasks : List Task) :
    AState × Bool :=
  (sortByPrioritySize tasks).foldl
    (fun acc t =>
      let r := overloadLoop resources (idealLoad resources tasks) t.id fuel
        ⟨lookupQ (initReq tasks) t.id, acc.1⟩
      (r.1.st, acc.2 && r.2))
    (initState resources, true)

/-- Raw allocations of strategy 4. -/
def overloadAllocations (fuel : Nat) (resources : List Resource)
    (tasks : List Task) : List Allocation :=
  (overloadRun fuel resources tasks).1.allocs

/-- `coverage` of strategy 4 (`total_allocated` summed over the records). -/
def coverage_overload (fuel : Nat) (resources : List Resource)
    (tasks : List Task) : ℚ :=
  if 0 < totalRequired tasks then
    sumHours (overloadAllocations fuel resources tasks) / totalRequired tasks
  else 0

/-- `score` of strategy 4. -/
def score_overload (fuel : Nat) (resources : List Resource)
    (tasks : List Task) : ℚ :=
  let st := (overloadRun fuel resources tasks).1
  let pen := (resources.map (fun r =>
    max 0 (lookupQ st.alloc r.id - r.available_hours))).sum
  let balance := if 0 < totalRequired tasks then 1 - pen / totalRequired tasks else 1
  coverage_overload fuel resources tasks * 40 + balance * 35

/-- Strategy 4's result: `None` when total availability is 0. -/
def alt_overload (fuel : Nat) (resources : List Resource) (tasks : List Task) :
    Option Alternative :=
  if totalAvailable resources = 0 then none
  else some ⟨"minimize overload allocation", score_overload fuel resources tasks,
    overloadAllocations fuel resources tasks⟩

/-! ### Strategy 5: `_greedy_optimized_allocation` -/

/-- One iteration of strategy 5's while loop: among resources with more than
0.1 spare hours pick the one maximizing
`(remaining_capacity / max(current_load, 1), remaining_capacity)`
lexicographically (first maximum wins), commit
`min(remaining_need, remaining_capacity)` only when it exceeds 0.1 hours. -/
def greedyStep (resources : List Resource) (tid : Int) (ls : LState) : StepRes :=
  if ls.need ≤ 0 then .done ls
  else
    match resources.filter (fun r => decide (1/10 < lookupQ ls.st.hours r.id)) with
    | [] => .done ls
    | r0 :: rest =>
      let key := fun (r : Resource) =>
        (lookupQ ls.st.hours r.id / max (lookupQ ls.st.alloc r.id) 1,
          lookupQ ls.st.hours r.id)
      let best := rest.foldl (fun b r =>
        if (key b).1 < (key r).1 ∨ ((key r).1 = (key b).1 ∧ (key b).2 < (key r).2)
        then r else b) r0
      let h := min ls.need (lookupQ ls.st.hours best.id)
      if 1/10 < h then .cont ⟨ls.need - h, commit ls.st best.id tid h⟩
      else .cont ls

/-- Fuel-indexed run of strategy 5's while loop. -/
def greedyLoop (resources : List Resource) (tid : Int) :
    Nat → LState → LState × Bool
  | 0, ls => (ls, false)
  | fuel + 1, ls =>
    match greedyStep resources tid ls with
    | .done ls' => (ls', true)
    | .cont ls' => greedyLoop resources tid fuel ls'

/-- Full run of strategy 5. -/
def greedyRun (fuel : Nat) (resources : List Resource) (tasks : List Task) :
    AState × Bool :=
  (sortByPrioritySize tasks).foldl
    (fun acc t =>
      let r := greedyLoop resources t.id fuel ⟨lookupQ (initReq tasks) t.id, acc.1⟩
      (r.1.st, acc.2 && r.2))
    (initState resources, true)

/-- Raw allocations of strategy 5. -/
def greedyAllocations (fuel : Nat) (resources : List Resource)
    (tasks : List Task) : List Allocation :=
  (greedyRun fuel resources tasks).1.allocs

/-- `coverage` of strategy 5 (running `total_allocated`). -/
def coverage_greedy (fuel : Nat) (resources : List Resource)
    (tasks : List Task) : ℚ :=
  if 0 < totalRequired tasks then
    (greedyRun fuel resources tasks).1.total / totalRequired tasks
  else 0

/-- `efficiency` of strategy 5. -/
def efficiency_greedy (fuel : Nat) (resources : List Resource)
    (tasks : List Task) : ℚ :=
  if resources.isEmpty then 0
  else
    (((resources.filter (fun r => decide (0 < r.available_hours))).map (fun r =>
      min 1 (lookupQ (greedyRun fuel resources tasks).1.alloc r.id /
        r.available_hours))).sum) / (resources.length : ℚ)

/-- `priority_coverage` of strategy 5, transcribed with the source's
`required - (required - allocated)` detour. -/
def priorityCoverage_greedy (fuel : Nat) (resources : List Resource)
    (tasks : List Task) : ℚ :=
  if tasks.isEmpty then 0
  else
    let reqs := initReq tasks
    let allocs := greedyAllocations fuel resources tasks
    (((sortByPrioritySize tasks).map (fun t =>
      ((6 - t.priority : Int) : ℚ) *
        min 1 ((lookupQ reqs t.id -
          (lookupQ reqs t.id - hoursSumTask allocs t.id)) / lookupQ reqs t.id))).sum) /
      (tasks.length : ℚ)

/-- `score` of strategy 5. -/
def score_greedy (fuel : Nat) (resources : List Resource) (tasks : List Task) : ℚ :=
  coverage_greedy fuel resources tasks * 50 +
    efficiency_greedy fuel resources tasks * 25 +
    priorityCoverage_greedy fuel resources tasks * 15

/-- The alternative produced by strategy 5. -/
def alt_greedy (fuel : Nat) (resources : List Resource) (tasks : List Task) :
    Alternative :=
  ⟨"greedy optimized allocation", score_greedy fuel resources tasks,
    greedyAllocations fuel resources tasks⟩

/-! ### `_remove_duplicates` -/

/-- Lexicographic order on dedup-key triples (Python tuple comparison). -/
def tripleLe (x y : Int × Int × ℚ) : Prop :=
  x.1 < y.1 ∨ (x.1 = y.1 ∧ (x.2.1 < y.2.1 ∨ (x.2.1 = y.2.1 ∧ x.2.2 ≤ y.2.2)))

instance : DecidableRel tripleLe := fun x y => by
  unfold tripleLe; infer_instance

instance : IsTotal (Int × Int × ℚ) tripleLe := by
  constructor
  intro a b
  unfold tripleLe
  rcases lt_trichotomy a.1 b.1 with h1 | h1 | h1
  · exact Or.inl (Or.inl h1)
  · rcases lt_trichotomy a.2.1 b.2.1 with h2 | h2 | h2
    · exact Or.inl (Or.inr ⟨h1, Or.inl h2⟩)
    · rcases le_total a.2.2 b.2.2 with h3 | h3
      · exact Or.inl (Or.inr ⟨h1, Or.inr ⟨h2, h3⟩⟩)
      · exact Or.inr (Or.inr ⟨h1.symm, Or.inr ⟨h2.symm, h3⟩⟩)
    · exact Or.inr (Or.inr ⟨h1.symm, Or.inl h2⟩)
  · exact Or.inr (Or.inl h1)

instance : IsTrans (Int × Int × ℚ) tripleLe := by
  constructor
  intro a b c hab hbc
  unfold tripleLe at hab hbc ⊢
  rcases hab with h1 | ⟨e1, h1⟩
  · rcases hbc with h2 | ⟨e2, h2⟩
    · exact Or.inl (lt_trans h1 h2)
    · exact Or.inl (h1.trans_eq e2)
  · rcases hbc with h2 | ⟨e2, h2⟩
    · exact Or.inl (e1.trans_lt h2)
    · refine Or.inr ⟨e1.trans e2, ?_⟩
      rcases h1 with h1' | ⟨f1, h1'⟩
      · rcases h2 with h2' | ⟨f2, h2'⟩
        · exact Or.inl (lt_trans h1' h2')
        · exact Or.inl (h1'.trans_eq f2)
      · rcases h2 with h2' | ⟨f2, h2'⟩
        · exact Or.inl (f1.trans_lt h2')
        · exact Or.inr ⟨f1.trans f2, le_trans h1' h2'⟩

instance : IsAntisymm (Int × Int × ℚ) tripleLe := by
  constructor
  intro a b hab hba
  obtain ⟨a1, a2, a3⟩ := a
  obtain ⟨b1, b2, b3⟩ := b
  unfold tripleLe at hab hba
  simp only at hab hba
  rcases hab with h1 | ⟨e1, h1⟩
  · rcases hba with h2 | ⟨e2, h2⟩
    · exact absurd h2 (lt_asymm h1)
    · exact absurd (h1.trans_eq e2) (lt_irrefl _)
  · rcases hba with h2 | ⟨e2, h2⟩
    · exact absurd (h2.trans_eq e1) (lt_irrefl _)
    · subst e1
      rcases h1 with h1' | ⟨f1, h1'⟩
      · rcases h2 with h2' | ⟨f2, h2'⟩
        · exact absurd h2' (lt_asymm h1')
        · exact absurd (h1'.trans_eq f2) (lt_irrefl _)
      · rcases h2 with h2' | ⟨f2, h2'⟩
        · exact absurd (h2'.trans_eq f1) (lt_irrefl _)
        · subst f1
          rw [le_antisymm h1' h2']

/-- `allocations_key`: the sorted tuple of
`(resource_id, task_id, round(hours, 1))` triples. -/
def altKey (alt : Alternative) : List (Int × Int × ℚ) :=
  List.insertionSort tripleLe
    (alt.allocations.map (fun a => (a.resource_id, a.task_id, round1 a.hours)))

/-- The duplicate-found branch: replace the first stored alternative carrying
`key` whose score is beaten by `alt`. -/
def replaceIfBetter (key : List (Int × Int × ℚ)) (alt : Alternative) :
    List Alternative → List Alternative
  | [] => []
  | e :: es =>
    if altKey e = key ∧ e.score < alt.score then alt :: es
    else e :: replaceIfBetter key alt es

/-- Main loop of `_remove_duplicates` over the input alternatives. -/
def removeDupsAux :
    List Alternative → List (List (Int × Int × ℚ)) → List Alternative →
      List Alternative
  | [], _, acc => acc
  | alt :: rest, seen, acc =>
    if altKey alt ∈ seen then removeDupsAux rest seen (replaceIfBetter (altKey alt) alt acc)
    else removeDupsAux rest (altKey alt :: seen) (acc ++ [alt])

/-- `_remove_duplicates`. -/
def removeDuplicates (alts : List Alternative) : List Alternative :=
  removeDupsAux alts [] []

/-- Specification helper: the running best-of-two used to describe which
duplicate survives (`none` = no candidate seen yet; a later candidate wins
only with a strictly higher score). -/
def keepBetter (cur : Option Alternative) (x : Alternative) : Option Alternative :=
  match cur with
  | none => some x
  | some e => some (if e.score < x.score then x else e)

/-- Specification helper: the unique survivor among the alternatives of a
list carrying dedup key `k` (the first-encountered maximum of the scores). -/
def survivor (l : List Alternative) (k : List (Int × Int × ℚ)) :
    Option Alternative :=
  (l.filter (fun x => decide (altKey x = k))).foldl keepBetter none

/-! ### `_normalize_allocations` -/

/-- Add `h` under `key` in the `grouped` dict (insert at end if absent). -/
def bumpPair (g : List ((Int × Int) × ℚ)) (key : Int × Int) (h : ℚ) :
    List ((Int × Int) × ℚ) :=
  match g with
  | [] => [(key, h)]
  | (k, v) :: rest =>
      if k = key then (k, v + h) :: rest else (k, v) :: bumpPair rest key h

/-- Group an allocation list by `(resource_id, task_id)`, summing hours. -/
def groupAllocs (allocs : List Allocation) : List ((Int × Int) × ℚ) :=
  allocs.foldl (fun g a => bumpPair g (a.resource_id, a.task_id) a.hours) []

/-- Normalized records of one alternative: groups whose raw sum is at least
0.5 hours, with the sum rounded to one decimal. -/
def normEntries (allocs : List Allocation) : List Allocation :=
  ((groupAllocs allocs).filter (fun e => decide (1/2 ≤ e.2))).map
    (fun e => ⟨e.1.1, e.1.2, round1 e.2⟩)

/-- Normalize one alternative; `none` when no record survives. -/
def normAlt (alt : Alternative) : Option Alternative :=
  let na := normEntries alt.allocations
  if na.isEmpty then none else some ⟨alt.explanation, alt.score, na⟩

/-- `_normalize_allocations`. -/
def normalizeAllocations (alts : List Alternative) : List Alternative :=
  alts.filterMap normAlt

/-! ### `generate_alternatives` -/

/-- The five collected strategy results, in source order (strategies 2 and 4
contribute only when they return a dict). -/
def collectAlternatives (fuel : Nat) (resources : List Resource)
    (tasks : List Task) : List Alternative :=
  [alt_priority resources tasks] ++ (alt_balanced resources tasks).toList ++
    [alt_spec resources tasks] ++ (alt_overload fuel resources tasks).toList ++
    [alt_greedy fuel resources tasks]

/-- `alternatives.sort(key=lambda x: x["score"], reverse=True)`: stable
descending sort by score. -/
def sortByScoreDesc (alts : List Alternative) : List Alternative :=
  stableSort (fun a b => decide (b.score ≤ a.score)) alts

/-- The engine entry point `generate_alternatives` (fuel feeds the two
while-loop strategies). -/
def generate_alternatives (fuel : Nat) (resources : List Resource)
    (tasks : List Task) : List Alternative :=
  if resources.isEmpty || tasks.isEmpty then []
  else
    sortByScoreDesc (normalizeAllocations (removeDuplicates
      (collectAlternatives fuel resources tasks)))

/-! ### Reference definitions written from the spec's words -/

/-- Modelled from the spec (§4.7 as the claim words it): per alternative,
group by `(resource_id, task_id)` summing hours, round each summed value to
one decimal, then drop every resulting ROUNDED entry below 0.5; drop the
alternative when nothing remains. -/
def normalizeSpecRounded (alts : List Alternative) : List Alternative :=
  alts.filterMap (fun alt =>
    let na := ((groupAllocs alt.allocations).map
      (fun e => Allocation.mk e.1.1 e.1.2 (round1 e.2))).filter
        (fun a => decide (1/2 ≤ a.hours))
    if na.isEmpty then none else some ⟨alt.explanation, alt.score, na⟩)

/-- The normalization reference amended to what the code does: entries are
dropped by their RAW summed value (< 0.5 hours), and the surviving sums are
then rounded to one decimal. -/
def normalizeSpecRawFilter (alts : List Alternative) : List Alternative :=
  alts.filterMap (fun alt =>
    let kept := (groupAllocs alt.allocations).filter (fun e => decide (1/2 ≤ e.2))
    let na := kept.map (fun e => Allocation.mk e.1.1 e.1.2 (round1 e.2))
    if na.isEmpty then none else some ⟨alt.explanation, alt.score, na⟩)

/-! ### Concrete inputs used by the claim theorems -/

/-- Resources of the spec's concrete scenario (§8.6). -/
def demoResources : List Resource :=
  [⟨1, "R1", "developer", 10⟩, ⟨2, "R2", "designer", 5⟩]

/-- Tasks of the spec's concrete scenario (§8.6). -/
def demoTasks : List Task :=
  [⟨1, "Develop feature", 8, 1⟩, ⟨2, "Design UI", 4, 2⟩]

/-- Failing input for strategy 4's loop: two resources, one task. -/
def oRes : List Resource := [⟨1, "a", "x", 10⟩, ⟨2, "b", "x", 1⟩]

/-- The task list of the strategy-4 failing input. -/
def oTs : List Task := [⟨1, "t", 6, 1⟩]

/-- Loop state after the first commit on `oRes`/`oTs` (resource 1 loaded up
to the 1.2 × ideal cap of 18/5). -/
def oLs1 : LState :=
  ⟨12/5, ⟨[(1, 32/5), (2, 1)], [(1, 18/5), (2, 0)], [⟨1, 1, 18/5⟩], 18/5⟩⟩

/-- Loop state after the second commit: resource 2 is exhausted, resource 1
sits exactly at the cap, and 7/5 hours of need remain — the loop can no
longer make progress. -/
def oStuck : LState :=
  ⟨7/5, ⟨[(1, 32/5), (2, 0)], [(1, 18/5), (2, 1)], [⟨1, 1, 18/5⟩, ⟨2, 1, 1⟩], 23/5⟩⟩

/-- Failing input for strategy 5's loop: one resource with plenty of hours. -/
def gRes : List Resource := [⟨1, "a", "x", 5⟩]

/-- A task demanding 0.05 hours (positive, so the input contract holds). -/
def gTs : List Task := [⟨1, "t", 1/20, 1⟩]

/-- The stuck state of strategy 5's loop on `gRes`/`gTs`: the whole need of
1/20 is below the 0.1 commitment threshold while the resource stays above the
0.1 availability threshold. -/
def gStuck : LState := ⟨1/20, initState gRes⟩

/-- Resource whose capacity 0.55 rounds up to 0.6 after normalization. -/
def capRes : List Resource := [⟨1, "r", "x", 11/20⟩]

/-- Task demanding exactly those 0.55 hours. -/
def capTasks : List Task := [⟨1, "t", 11/20, 1⟩]

/-- Decidable version of the claimed capacity invariant over an output. -/
def capacityOK (resources : List Resource) (alts : List Alternative) : Bool :=
  alts.all (fun alt => resources.all (fun r =>
    decide (hoursSumRes alt.allocations r.id ≤ r.available_hours)))

/-- Invariant tying a strategy state to the initial capacities: remaining
hours are nonnegative, every id's committed sum plus its remaining hours
equals its initial capacity, and every committed record is positive. -/
def CapState (resources : List Resource) (st : AState) : Prop :=
  (∀ rid, 0 ≤ lookupQ st.hours rid ∧
    hoursSumRes st.allocs rid + lookupQ st.hours rid =
      lookupQ (initHours resources) rid) ∧
  ∀ a ∈ st.allocs, 0 < a.hours

/-- Resource list making the balanced strategy over-allocate. -/
def balRes : List Resource := [⟨1, "r", "x", 20⟩]

/-- Task list for the balanced over-allocation counterexample. -/
def balTasks : List Task := [⟨1, "t", 10, 1⟩]

/-- An alternative holding one dust allocation of 0.46 hours. -/
def dustAlt : Alternative := ⟨"x", 0, [⟨1, 1, 46/100⟩]⟩

/-- Low-scoring duplicate used by the deduplication witness. -/
def dupA : Alternative := ⟨"a", 1, [⟨1, 1, 1⟩]⟩

/-- High-scoring duplicate (same allocations) used by the dedup witness. -/
def dupB : Alternative := ⟨"b", 2, [⟨1, 1, 1⟩]⟩

end DSS

unseal Rat.add Rat.mul Rat.inv Rat.sub

namespace DSS

/-! ### Claim C8: the concrete priority-strategy scenario -/

/-- C8: with resources R1(developer, 10h), R2(designer, 5h) and tasks
T1("Develop feature", 8h, priority 1), T2("Design UI", 4h, priority 2), the
priority strategy yields exactly the allocations (R1,T1,8), (R1,T2,2),
(R2,T2,2), with coverage 1, priority bonus 4.5, overload penalty 0 and
score 140. -/
theorem priority_concrete_scenario :
    priorityAllocations demoResources demoTasks =
        [⟨1, 1, 8⟩, ⟨1, 2, 2⟩, ⟨2, 2, 2⟩] ∧
      coverage_priority demoResources demoTasks = 1 ∧
      priorityBonus demoResources demoTasks = 9/2 ∧
      overloadPenalty_priority demoResources demoTasks = 0 ∧
      score_priority demoResources demoTasks = 140 := by
  decide

/-! ### Claim C9: the empty-input law -/

/-- C9: `generate_alternatives` returns the empty list (a non-error value)
whenever the resource list or the task list is empty, for every fuel. -/
theorem generate_empty_inputs :
    ∀ (fuel : Nat) (resources : List Resource) (tasks : List Task),
      generate_alternatives fuel resources [] = [] ∧
      generate_alternatives fuel [] tasks = [] ∧
      generate_alternatives fuel [] [] = [] := by
  intro fuel resources tasks
  refine ⟨?_, rfl, rfl⟩
  simp [generate_alternatives]

/-! ### Claim C1: the overload-minimizing loop does not always terminate -/

/-- First iteration on the failing input: resource 1 is filled to the cap. -/
theorem oStep0 :
    overloadStep oRes (idealLoad oRes oTs) 1 ⟨6, initState oRes⟩ = .cont oLs1 := by
  decide

/-- Second iteration: resource 2 is exhausted, reaching the stuck state. -/
theorem oStep1 : overloadStep oRes (idealLoad oRes oTs) 1 oLs1 = .cont oStuck := by
  decide

/-- At the stuck state the fallback selects resource 1, but the always-applied
cap term `1.2*ideal - current_load` is 0, so nothing is committed and the
state repeats. -/
theorem oStepStuck :
    overloadStep oRes (idealLoad oRes oTs) 1 oStuck = .cont oStuck := by
  decide

/-- From the stuck state the loop never exits, whatever the fuel. -/
theorem oLoopStuck : ∀ n,
    overloadLoop oRes (idealLoad oRes oTs) 1 n oStuck = (oStuck, false) := by
  intro n
  induction n with
  | zero => rfl
  | succ k ih => rw [overloadLoop, oStepStuck]; exact ih

/-- C1: the per-task allocation loop of the overload-minimizing strategy does
NOT terminate on every contract-satisfying input: on `oRes`/`oTs`
(available hours 10 and 1, required hours 6, all positive) the loop never
exits by its own condition, for any amount of fuel — the cap term is applied
to the committed amount even when the resource came from the fallback, where
it is non-positive, so the loop stops making progress. -/
theorem overload_loop_diverges : ∀ fuel, (overloadRun fuel oRes oTs).2 = false := by
  intro fuel
  have hrun : overloadRun fuel oRes oTs =
      ((overloadLoop oRes (idealLoad oRes oTs) 1 fuel ⟨6, initState oRes⟩).1.st,
        true && (overloadLoop oRes (idealLoad oRes oTs) 1 fuel ⟨6, initState oRes⟩).2) :=
    rfl
  rw [hrun]
  simp only [Bool.true_and]
  match fuel with
  | 0 => rfl
  | 1 =>
    rw [overloadLoop, oStep0]
    rfl
  | n + 2 =>
    rw [overloadLoop, oStep0]
    show (overloadLoop oRes (idealLoad oRes oTs) 1 (n + 1) oLs1).2 = false
    rw [overloadLoop, oStep1]
    show (overloadLoop oRes (idealLoad oRes oTs) 1 n oStuck).2 = false
    rw [oLoopStuck]

/-! ### Claim C2: the greedy loop does not always terminate -/

/-- On `gRes`/`gTs` the very first loop state is stuck: the candidate
commitment 1/20 never clears the 0.1 threshold, yet the resource keeps more
than 0.1 spare hours, so the loop repeats without progress. -/
theorem gStepStuck : greedyStep gRes 1 gStuck = .cont gStuck := by
  decide

/-- From the stuck state the greedy loop never exits, whatever the fuel. -/
theorem gLoopStuck : ∀ n, greedyLoop gRes 1 n gStuck = (gStuck, false) := by
  intro n
  induction n with
  | zero => rfl
  | succ k ih => rw [greedyLoop, gStepStuck]; exact ih

/-- C2: the per-task allocation loop of the greedy strategy does NOT
terminate on every contract-satisfying input: on `gRes`/`gTs` (available
hours 5, required hours 0.05, both positive) the sub-threshold commitment is
discarded but the remaining need is not reduced, so the loop never ends. -/
theorem greedy_loop_diverges : ∀ fuel, (greedyRun fuel gRes gTs).2 = false := by
  intro fuel
  have hrun : greedyRun fuel gRes gTs =
      ((greedyLoop gRes 1 fuel gStuck).1.st, true && (greedyLoop gRes 1 fuel gStuck).2) :=
    rfl
  rw [hrun, gLoopStuck]
  rfl

/-! ### Claim C6: normalization versus the spec's round-then-drop order -/

/-- C6 counterexample: on a single 0.46-hour allocation the code drops the
entry (raw sum below 0.5) and with it the alternative, while the claim's
round-first reference keeps it as 0.5 — so normalization does NOT equal the
claimed reference definition. -/
theorem normalize_round_order_cex :
    normalizeAllocations [dustAlt] = [] ∧
      normalizeSpecRounded [dustAlt] = [⟨"x", 0, [⟨1, 1, 1/2⟩]⟩] := by
  decide

/-- C6 amended: normalization equals the reference with the drop applied to
the RAW summed value, before rounding: group by `(resource_id, task_id)`
summing hours, drop groups whose raw sum is below 0.5, then round the
survivors to one decimal; drop the alternative when nothing remains. -/
theorem normalize_eq_raw_filter_reference :
    ∀ alts, normalizeAllocations alts = normalizeSpecRawFilter alts := by
  intro alts
  unfold normalizeAllocations normalizeSpecRawFilter
  refine congrArg (List.filterMap · alts) ?_
  funext alt
  simp only [normAlt, normEntries, List.isEmpty_iff, List.map_eq_nil_iff]

/-! ### Lemmas on the stable sort -/

/-- Membership in an insertion. -/
theorem mem_sortedInsert (le : α → α → Bool) (x : α) (l : List α) (y : α) :
    y ∈ sortedInsert le x l ↔ y = x ∨ y ∈ l := by
  induction l with
  | nil => simp [sortedInsert]
  | cons z zs ih =>
    simp only [sortedInsert]
    split
    · simp [List.mem_cons]
    · simp [List.mem_cons, ih]
      tauto

/-- Inserting is a permutation of consing. -/
theorem sortedInsert_perm (le : α → α → Bool) (x : α) (l : List α) :
    List.Perm (sortedInsert le x l) (x :: l) := by
  induction l with
  | nil => exact List.Perm.refl _
  | cons z zs ih =>
    simp only [sortedInsert]
    split
    · exact List.Perm.refl _
    · exact (ih.cons z).trans (List.Perm.swap x z zs)

/-- The stable sort permutes its input. -/
theorem stableSort_perm (le : α → α → Bool) (l : List α) :
    List.Perm (stableSort le l) l := by
  induction l with
  | nil => exact List.Perm.refl _
  | cons x xs ih => exact (sortedInsert_perm le x _).trans (ih.cons x)

/-- Inserting into a score-descending list keeps it score-descending. -/
theorem pairwise_sortedInsert_score (x : Alternative) (l : List Alternative)
    (h : l.Pairwise (fun a b => b.score ≤ a.score)) :
    (sortedInsert (fun a b => decide (b.score ≤ a.score)) x l).Pairwise
      (fun a b => b.score ≤ a.score) := by
  induction l with
  | nil => simp [sortedInsert]
  | cons z zs ih =>
    rcases List.pairwise_cons.mp h with ⟨hz, hzs⟩
    simp only [sortedInsert]
    split
    case isTrue hle =>
      have hxz : z.score ≤ x.score := of_decide_eq_true hle
      refine List.pairwise_cons.mpr ⟨?_, h⟩
      intro b hb
      rcases List.mem_cons.mp hb with rfl | hbzs
      · exact hxz
      · exact le_trans (hz b hbzs) hxz
    case isFalse hle =>
      have hzx : x.score ≤ z.score := by
        have : ¬ z.score ≤ x.score := by simpa using hle
        exact le_of_lt (not_le.mp this)
      refine List.pairwise_cons.mpr ⟨?_, ih hzs⟩
      intro b hb
      rcases (mem_sortedInsert _ _ _ _).mp hb with rfl | hbzs
      · exact hzx
      · exact hz b hbzs

/-- The score sort produces a score-descending list. -/
theorem pairwise_sortByScoreDesc (l : List Alternative) :
    (sortByScoreDesc l).Pairwise (fun a b => b.score ≤ a.score) := by
  unfold sortByScoreDesc
  induction l with
  | nil => simp [stableSort]
  | cons x xs ih => exact pairwise_sortedInsert_score x _ ih

/-- Inserting below the strictly-greater prefix leaves each equal-score slice
of the list either untouched or extended at its front. -/
theorem filter_sortedInsert_score (x : Alternative) (l : List Alternative) (c : ℚ) :
    (sortedInsert (fun a b => decide (b.score ≤ a.score)) x l).filter
        (fun a => decide (a.score = c)) =
      if x.score = c then x :: l.filter (fun a => decide (a.score = c))
      else l.filter (fun a => decide (a.score = c)) := by
  induction l with
  | nil =>
    by_cases hx : x.score = c <;> simp [sortedInsert, List.filter, hx]
  | cons z zs ih =>
    simp only [sortedInsert]
    split
    case isTrue hle =>
      by_cases hx : x.score = c <;> simp [List.filter_cons, hx]
    case isFalse hle =>
      have hzx : x.score < z.score := by
        have : ¬ z.score ≤ x.score := by simpa using hle
        exact not_le.mp this
      by_cases hx : x.score = c
      · have hz : ¬ z.score = c := by
          intro hzc
          rw [hx, hzc] at hzx
          exact lt_irrefl c hzx
        simp [List.filter_cons, hx, hz, ih]
      · by_cases hz : z.score = c <;> simp [List.filter_cons, hx, hz, ih]

/-- The descending score sort is stable: it preserves each equal-score slice
of its input verbatim. -/
theorem filter_sortByScoreDesc (l : List Alternative) (c : ℚ) :
    (sortByScoreDesc l).filter (fun a => decide (a.score = c)) =
      l.filter (fun a => decide (a.score = c)) := by
  unfold sortByScoreDesc
  induction l with
  | nil => rfl
  | cons x xs ih =>
    show (sortedInsert _ x (stableSort _ xs)).filter _ = _
    rw [filter_sortedInsert_score]
    by_cases hx : x.score = c
    · simp [hx, List.filter_cons, ih]
    · simp [hx, List.filter_cons, ih]

/-! ### Lemmas on the dict model -/

/-- Reading back a freshly written key. -/
theorem lookupQ_setQ_same (d : List (Int × ℚ)) (k : Int) (v : ℚ) :
    lookupQ (setQ d k v) k = v := by
  induction d with
  | nil => simp [setQ, lookupQ]
  | cons e rest ih =>
    obtain ⟨k', w⟩ := e
    by_cases h : k' = k <;> simp [setQ, lookupQ, h, ih]

/-- Writing one key leaves the others unchanged. -/
theorem lookupQ_setQ_other (d : List (Int × ℚ)) (k k' : Int) (v : ℚ)
    (h : k' ≠ k) : lookupQ (setQ d k v) k' = lookupQ d k' := by
  induction d with
  | nil =>
    simp only [setQ, lookupQ]
    rw [if_neg (fun hc => h hc.symm)]
  | cons e rest ih =>
    obtain ⟨k0, w⟩ := e
    by_cases h0 : k0 = k
    · subst h0
      simp only [setQ, if_pos rfl, lookupQ]
      rw [if_neg (fun hc => h hc.symm), if_neg (fun hc => h hc.symm)]
    · simp only [setQ, if_neg h0, lookupQ]
      by_cases h1 : k0 = k'
      · rw [if_pos h1, if_pos h1]
      · rw [if_neg h1, if_neg h1, ih]

/-- Entries of an updated dict come from the old dict or are the new pair. -/
theorem mem_setQ {e : Int × ℚ} {d : List (Int × ℚ)} {k : Int} {v : ℚ}
    (h : e ∈ setQ d k v) : e ∈ d ∨ e = (k, v) := by
  induction d with
  | nil => simpa [setQ] using h
  | cons e0 rest ih =>
    obtain ⟨k0, w⟩ := e0
    by_cases h0 : k0 = k
    · subst h0
      simp only [setQ, if_pos rfl] at h
      rcases List.mem_cons.mp h with rfl | hrest
      · exact Or.inr rfl
      · exact Or.inl (List.mem_cons_of_mem _ hrest)
    · simp only [setQ, if_neg h0] at h
      rcases List.mem_cons.mp h with rfl | hrest
      · exact Or.inl (List.mem_cons_self _ _)
      · rcases ih hrest with hd | he
        · exact Or.inl (List.mem_cons_of_mem _ hd)
        · exact Or.inr he

/-- A lookup in a dict of nonnegative values is nonnegative. -/
theorem lookupQ_nonneg :
    ∀ (d : List (Int × ℚ)), (∀ e ∈ d, 0 ≤ e.2) → ∀ k, 0 ≤ lookupQ d k := by
  intro d
  induction d with
  | nil => intro _ k; simp [lookupQ]
  | cons e rest ih =>
    intro h k
    obtain ⟨k0, w⟩ := e
    by_cases h0 : k0 = k
    · simpa [lookupQ, h0] using h (k0, w) (List.mem_cons_self _ _)
    · simpa [lookupQ, h0] using ih (fun e he => h e (List.mem_cons_of_mem _ he)) k

/-- Entries of a dict built by fold of `setQ` writes. -/
theorem foldl_setQ_mem {α : Type} (f : α → Int) (g : α → ℚ) (l : List α)
    (d : List (Int × ℚ)) (e : Int × ℚ)
    (h : e ∈ l.foldl (fun d x => setQ d (f x) (g x)) d) :
    e ∈ d ∨ ∃ x ∈ l, e = (f x, g x) := by
  induction l generalizing d with
  | nil => exact Or.inl h
  | cons x xs ih =>
    rcases ih (setQ d (f x) (g x)) h with hd | ⟨y, hy, he⟩
    · rcases mem_setQ hd with hd' | he'
      · exact Or.inl hd'
      · exact Or.inr ⟨x, (List.mem_cons_self _ _), he'⟩
    · exact Or.inr ⟨y, List.mem_cons_of_mem _ hy, he⟩

/-- A fold of writes at other keys does not change a lookup. -/
theorem foldl_setQ_lookup_notmem {α : Type} (f : α → Int) (g : α → ℚ)
    (l : List α) (d : List (Int × ℚ)) (k : Int) (h : ∀ x ∈ l, f x ≠ k) :
    lookupQ (l.foldl (fun d x => setQ d (f x) (g x)) d) k = lookupQ d k := by
  induction l generalizing d with
  | nil => rfl
  | cons x xs ih =>
    rw [List.foldl_cons, ih _ (fun y hy => h y (List.mem_cons_of_mem _ hy)),
      lookupQ_setQ_other _ _ _ _ (fun hc => h x (List.mem_cons_self _ _) hc.symm)]

/-- Fold version of `lookup_initReq`, with the base dict generalized. -/
theorem lookup_initReq_aux (t : Task) :
    ∀ (tasks : List Task), (tasks.map Task.id).Nodup → t ∈ tasks →
      ∀ d, lookupQ
        (tasks.foldl (fun d t => setQ d t.id t.required_hours) d) t.id =
          t.required_hours := by
  intro tasks
  induction tasks with
  | nil => intro _ ht; cases ht
  | cons u us ih =>
    intro hn ht d
    rw [List.foldl_cons]
    rcases List.mem_cons.mp ht with rfl | hus
    · rw [foldl_setQ_lookup_notmem Task.id Task.required_hours us _ _
        (fun x hx hc => (List.nodup_cons.mp hn).1
          (by rw [← hc]; exact List.mem_map_of_mem _ hx))]
      exact lookupQ_setQ_same _ _ _
    · exact ih (List.nodup_cons.mp hn).2 hus _

/-- With distinct task ids, the requirement dict returns each task's
`required_hours`. -/
theorem lookup_initReq {tasks : List Task} (hn : (tasks.map Task.id).Nodup)
    {t : Task} (ht : t ∈ tasks) :
    lookupQ (initReq tasks) t.id = t.required_hours :=
  lookup_initReq_aux t tasks hn ht []

/-- Fold version of `lookup_initHours`, with the base dict generalized. -/
theorem lookup_initHours_aux (r : Resource) :
    ∀ (resources : List Resource), (resources.map Resource.id).Nodup →
      r ∈ resources →
      ∀ d, lookupQ
        (resources.foldl (fun d r => setQ d r.id r.available_hours) d) r.id =
          r.available_hours := by
  intro resources
  induction resources with
  | nil => intro _ hr; cases hr
  | cons u us ih =>
    intro hn hr d
    rw [List.foldl_cons]
    rcases List.mem_cons.mp hr with rfl | hus
    · rw [foldl_setQ_lookup_notmem Resource.id Resource.available_hours us _ _
        (fun x hx hc => (List.nodup_cons.mp hn).1
          (by rw [← hc]; exact List.mem_map_of_mem _ hx))]
      exact lookupQ_setQ_same _ _ _
    · exact ih (List.nodup_cons.mp hn).2 hus _

/-- With distinct resource ids, the capacity dict returns each resource's
`available_hours`. -/
theorem lookup_initHours {resources : List Resource}
    (hn : (resources.map Resource.id).Nodup) {r : Resource} (hr : r ∈ resources) :
    lookupQ (initHours resources) r.id = r.available_hours :=
  lookup_initHours_aux r resources hn hr []

/-- Requirement lookups are nonnegative when every requirement is. -/
theorem initReq_lookup_nonneg {tasks : List Task}
    (h : ∀ t ∈ tasks, 0 ≤ t.required_hours) (k : Int) :
    0 ≤ lookupQ (initReq tasks) k := by
  refine lookupQ_nonneg _ (fun e he => ?_) k
  rcases foldl_setQ_mem Task.id Task.required_hours tasks [] e he with h0 | ⟨t, ht, rfl⟩
  · cases h0
  · exact h t ht

/-! ### Per-strategy allocation-total bounds (claim C4) -/

/-- A commit adds its hours to the running total. -/
theorem commit_total (st : AState) (rid tid : Int) (h : ℚ) :
    (commit st rid tid h).total = st.total + h := rfl

/-- A commit adds its hours to the allocation-record sum. -/
theorem commit_sumHours (st : AState) (rid tid : Int) (h : ℚ) :
    sumHours (commit st rid tid h).allocs = sumHours st.allocs + h := by
  simp [commit, sumHours]

/-- Strategy 1's resource walk allocates at most the task's need. -/
theorem walkResources_total_le (tid : Int) :
    ∀ (rl : List Resource) (need : ℚ) (st : AState), 0 ≤ need →
      (walkResources tid rl need st).total ≤ st.total + need := by
  intro rl
  induction rl with
  | nil => intro need st h; exact le_add_of_nonneg_right h
  | cons r rest ih =>
    intro need st h
    simp only [walkResources]
    split
    · exact le_add_of_nonneg_right h
    · split
      · have hmin : min need (lookupQ st.hours r.id) ≤ need := min_le_left _ _
        have h0 : 0 ≤ need - min need (lookupQ st.hours r.id) := by linarith
        have hrec := ih (need - min need (lookupQ st.hours r.id))
          (commit st r.id tid (min need (lookupQ st.hours r.id))) h0
        rw [commit_total] at hrec
        linarith
      · exact ih need st h

/-- Folding strategy 1's walk over tasks allocates at most the sum of the
looked-up requirements. -/
theorem foldl_walk_total_le (rs : List Resource) (reqs : List (Int × ℚ))
    (hnn : ∀ k, 0 ≤ lookupQ reqs k) :
    ∀ (ts' : List Task) (st : AState),
      ((ts'.foldl (fun st t => walkResources t.id rs (lookupQ reqs t.id) st) st).total) ≤
        st.total + (ts'.map (fun t => lookupQ reqs t.id)).sum := by
  intro ts'
  induction ts' with
  | nil => intro st; simp
  | cons t rest ih =>
    intro st
    rw [List.foldl_cons, List.map_cons, List.sum_cons]
    have h1 := ih (walkResources t.id rs (lookupQ reqs t.id) st)
    have h2 := walkResources_total_le t.id rs (lookupQ reqs t.id) st (hnn t.id)
    linarith

/-- Sum of requirement lookups over a sorted task list, with distinct ids. -/
theorem sum_lookup_sorted (tasks : List Task) (le : Task → Task → Bool)
    (hn : (tasks.map Task.id).Nodup) :
    ((stableSort le tasks).map (fun t => lookupQ (initReq tasks) t.id)).sum =
      totalRequired tasks := by
  have hperm := stableSort_perm le tasks
  have hcong : (stableSort le tasks).map (fun t => lookupQ (initReq tasks) t.id) =
      (stableSort le tasks).map Task.required_hours :=
    List.map_congr_left (fun t ht => lookup_initReq hn (hperm.mem_iff.mp ht))
  rw [hcong]
  exact (hperm.map Task.required_hours).sum_eq

/-- Strategy 1 never allocates more than the total requirement. -/
theorem priorityRun_total_le (resources : List Resource) (tasks : List Task)
    (hn : (tasks.map Task.id).Nodup) (hreq : ∀ t ∈ tasks, 0 ≤ t.required_hours) :
    (priorityRun resources tasks).total ≤ totalRequired tasks := by
  have h := foldl_walk_total_le resources (initReq tasks)
    (initReq_lookup_nonneg hreq) (sortByPriority tasks) (initState resources)
  have hsum := sum_lookup_sorted tasks
    (fun a b => decide (a.priority ≤ b.priority)) hn
  calc (priorityRun resources tasks).total
      ≤ (initState resources).total +
        ((sortByPriority tasks).map (fun t => lookupQ (initReq tasks) t.id)).sum := h
    _ = totalRequired tasks := by
        rw [show (initState resources).total = 0 from rfl, zero_add]
        exact hsum

/-- C4 part for strategy 1: coverage is at most 1. -/
theorem coverage_priority_le_one (resources : List Resource) (tasks : List Task)
    (hn : (tasks.map Task.id).Nodup) (hreq : ∀ t ∈ tasks, 0 ≤ t.required_hours) :
    coverage_priority resources tasks ≤ 1 := by
  unfold coverage_priority
  split
  case isTrue hpos =>
    rw [div_le_one hpos]
    exact priorityRun_total_le resources tasks hn hreq
  case isFalse h => norm_num

/-- First specialization pass: the remaining need stays nonnegative and the
total grows by exactly the consumed need. -/
theorem specWalk1_spec (tid : Int) (suitable : List String) :
    ∀ (rl : List Resource) (need : ℚ) (st : AState) (m : Nat), 0 ≤ need →
      0 ≤ (specWalk1 tid suitable rl need st m).1 ∧
      (specWalk1 tid suitable rl need st m).2.1.total +
          (specWalk1 tid suitable rl need st m).1 = st.total + need := by
  intro rl
  induction rl with
  | nil => intro need st m h; exact ⟨h, rfl⟩
  | cons r rest ih =>
    intro need st m h
    simp only [specWalk1]
    split
    · exact ⟨h, rfl⟩
    · split
      · have hmin : min need (lookupQ st.hours r.id) ≤ need := min_le_left _ _
        have h0 : 0 ≤ need - min need (lookupQ st.hours r.id) := by linarith
        obtain ⟨ha, hb⟩ := ih (need - min need (lookupQ st.hours r.id))
          (commit st r.id tid (min need (lookupQ st.hours r.id)))
          (if r.type ∈ suitable then m + 1 else m) h0
        refine ⟨ha, ?_⟩
        rw [hb, commit_total]
        ring
      · exact ih need st m h

/-- Second specialization pass: same accounting as the first. -/
theorem specWalk2_spec (tid : Int) (toTry : List Resource) :
    ∀ (rl : List Resource) (need : ℚ) (st : AState), 0 ≤ need →
      0 ≤ (specWalk2 tid toTry rl need st).1 ∧
      (specWalk2 tid toTry rl need st).2.total +
          (specWalk2 tid toTry rl need st).1 = st.total + need := by
  intro rl
  induction rl with
  | nil => intro need st h; exact ⟨h, rfl⟩
  | cons r rest ih =>
    intro need st h
    simp only [specWalk2]
    split
    · exact ⟨h, rfl⟩
    · split
      · have hmin : min need (lookupQ st.hours r.id) ≤ need := min_le_left _ _
        have h0 : 0 ≤ need - min need (lookupQ st.hours r.id) := by linarith
        obtain ⟨ha, hb⟩ := ih (need - min need (lookupQ st.hours r.id))
          (commit st r.id tid (min need (lookupQ st.hours r.id))) h0
        refine ⟨ha, ?_⟩
        rw [hb, commit_total]
        ring
      · exact ih need st h

/-- One specialization task consumes at most its looked-up requirement. -/
theorem specTask_total_le (resources : List Resource) (reqs : List (Int × ℚ))
    (stm : AState × Nat) (t : Task) (h : 0 ≤ lookupQ reqs t.id) :
    (specTask resources reqs stm t).1.total ≤ stm.1.total + lookupQ reqs t.id := by
  obtain ⟨h1a, h1b⟩ := specWalk1_spec t.id (suitableTypes t.title)
    (resourcesToTry resources (suitableTypes t.title)) (lookupQ reqs t.id)
    stm.1 stm.2 h
  simp only [specTask]
  split
  · rename_i hpos
    obtain ⟨h2a, h2b⟩ := specWalk2_spec t.id
      (resourcesToTry resources (suitableTypes t.title)) resources
      ((specWalk1 t.id (suitableTypes t.title)
        (resourcesToTry resources (suitableTypes t.title)) (lookupQ reqs t.id)
        stm.1 stm.2).1)
      ((specWalk1 t.id (suitableTypes t.title)
        (resourcesToTry resources (suitableTypes t.title)) (lookupQ reqs t.id)
        stm.1 stm.2).2.1)
      (le_of_lt hpos)
    dsimp only
    linarith
  · dsimp only
    linarith

/-- Folding specialization tasks stays below the requirement sum. -/
theorem foldl_specTask_total_le (resources : List Resource)
    (reqs : List (Int × ℚ)) (hnn : ∀ k, 0 ≤ lookupQ reqs k) :
    ∀ (ts' : List Task) (stm : AState × Nat),
      (ts'.foldl (specTask resources reqs) stm).1.total ≤
        stm.1.total + (ts'.map (fun t => lookupQ reqs t.id)).sum := by
  intro ts'
  induction ts' with
  | nil => intro stm; simp
  | cons t rest ih =>
    intro stm
    rw [List.foldl_cons, List.map_cons, List.sum_cons]
    have h1 := ih (specTask resources reqs stm t)
    have h2 := specTask_total_le resources reqs stm t (hnn t.id)
    linarith

/-- Strategy 3 never allocates more than the total requirement. -/
theorem specRun_total_le (resources : List Resource) (tasks : List Task)
    (hn : (tasks.map Task.id).Nodup) (hreq : ∀ t ∈ tasks, 0 ≤ t.required_hours) :
    (specRun resources tasks).1.total ≤ totalRequired tasks := by
  have h := foldl_specTask_total_le resources (initReq tasks)
    (initReq_lookup_nonneg hreq) (sortByPrioritySize tasks) (initState resources, 0)
  have hsum := sum_lookup_sorted tasks
    (fun a b =>
      decide (a.priority < b.priority ∨
        (a.priority = b.priority ∧ b.required_hours ≤ a.required_hours))) hn
  calc (specRun resources tasks).1.total
      ≤ (initState resources, 0).1.total +
        ((sortByPrioritySize tasks).map (fun t => lookupQ (initReq tasks) t.id)).sum := h
    _ = totalRequired tasks := by
        rw [show ((initState resources, 0) : AState × Nat).1.total = 0 from rfl, zero_add]
        exact hsum

/-- C4 part for strategy 3: coverage is at most 1. -/
theorem coverage_spec_le_one (resources : List Resource) (tasks : List Task)
    (hn : (tasks.map Task.id).Nodup) (hreq : ∀ t ∈ tasks, 0 ≤ t.required_hours) :
    coverage_spec resources tasks ≤ 1 := by
  unfold coverage_spec
  split
  case isTrue hpos =>
    rw [div_le_one hpos]
    exact specRun_total_le resources tasks hn hreq
  case isFalse h => norm_num

/-- Case shape of one strategy-4 loop iteration: exit unchanged, repeat
unchanged, or commit a positive amount bounded by need and spare capacity. -/
theorem overloadStep_cases (rs : List Resource) (i : ℚ) (t : Int) (ls : LState) :
    overloadStep rs i t ls = .done ls ∨ overloadStep rs i t ls = .cont ls ∨
      ∃ rid hq, 0 < hq ∧ hq ≤ ls.need ∧ hq ≤ lookupQ ls.st.hours rid ∧
        overloadStep rs i t ls = .cont ⟨ls.need - hq, commit ls.st rid t hq⟩ := by
  simp only [overloadStep]
  split
  · exact Or.inl rfl
  · split
    · exact Or.inl rfl
    · split
      · rename_i hpos
        exact Or.inr (Or.inr ⟨_, _, hpos, min_le_left _ _,
          le_trans (min_le_right _ _) (min_le_left _ _), rfl⟩)
      · exact Or.inr (Or.inl rfl)

/-- Case shape of one strategy-5 loop iteration. -/
theorem greedyStep_cases (rs : List Resource) (t : Int) (ls : LState) :
    greedyStep rs t ls = .done ls ∨ greedyStep rs t ls = .cont ls ∨
      ∃ rid hq, 0 < hq ∧ hq ≤ ls.need ∧ hq ≤ lookupQ ls.st.hours rid ∧
        greedyStep rs t ls = .cont ⟨ls.need - hq, commit ls.st rid t hq⟩ := by
  simp only [greedyStep]
  split
  · exact Or.inl rfl
  · split
    · exact Or.inl rfl
    · split
      · rename_i hpos
        exact Or.inr (Or.inr ⟨_, _, lt_trans (by norm_num) hpos, min_le_left _ _,
          min_le_right _ _, rfl⟩)
      · exact Or.inr (Or.inl rfl)

/-- Unfolding a successful-exit iteration of strategy 4's loop. -/
theorem overloadLoop_succ_done {rs : List Resource} {i : ℚ} {t : Int}
    {ls ls' : LState} (n : Nat) (h : overloadStep rs i t ls = .done ls') :
    overloadLoop rs i t (n + 1) ls = (ls', true) := by
  rw [overloadLoop, h]

/-- Unfolding a continuing iteration of strategy 4's loop. -/
theorem overloadLoop_succ_cont {rs : List Resource} {i : ℚ} {t : Int}
    {ls ls' : LState} (n : Nat) (h : overloadStep rs i t ls = .cont ls') :
    overloadLoop rs i t (n + 1) ls = overloadLoop rs i t n ls' := by
  rw [overloadLoop, h]

/-- Unfolding a successful-exit iteration of strategy 5's loop. -/
theorem greedyLoop_succ_done {rs : List Resource} {t : Int} {ls ls' : LState}
    (n : Nat) (h : greedyStep rs t ls = .done ls') :
    greedyLoop rs t (n + 1) ls = (ls', true) := by
  rw [greedyLoop, h]

/-- Unfolding a continuing iteration of strategy 5's loop. -/
theorem greedyLoop_succ_cont {rs : List Resource} {t : Int} {ls ls' : LState}
    (n : Nat) (h : greedyStep rs t ls = .cont ls') :
    greedyLoop rs t (n + 1) ls = greedyLoop rs t n ls' := by
  rw [greedyLoop, h]

/-- Accounting of strategy 4's loop: the remaining need stays nonnegative and
both the running total and the record sum grow by exactly the consumed need. -/
theorem overloadLoop_spec (rs : List Resource) (i : ℚ) (t : Int) :
    ∀ (fuel : Nat) (ls : LState), 0 ≤ ls.need →
      0 ≤ (overloadLoop rs i t fuel ls).1.need ∧
      (overloadLoop rs i t fuel ls).1.st.total +
          (overloadLoop rs i t fuel ls).1.need = ls.st.total + ls.need ∧
      sumHours (overloadLoop rs i t fuel ls).1.st.allocs +
          (overloadLoop rs i t fuel ls).1.need = sumHours ls.st.allocs + ls.need := by
  intro fuel
  induction fuel with
  | zero => intro ls h; exact ⟨h, rfl, rfl⟩
  | succ n ih =>
    intro ls h
    rcases overloadStep_cases rs i t ls with hd | hc | ⟨rid, hq, hqpos, hqle, _, hstep⟩
    · rw [overloadLoop_succ_done n hd]; exact ⟨h, rfl, rfl⟩
    · rw [overloadLoop_succ_cont n hc]; exact ih ls h
    · rw [overloadLoop_succ_cont n hstep]
      obtain ⟨ha, hb, hc'⟩ := ih ⟨ls.need - hq, commit ls.st rid t hq⟩
        (show (0:ℚ) ≤ ls.need - hq by linarith)
      refine ⟨ha, ?_, ?_⟩
      · rw [hb]
        show (commit ls.st rid t hq).total + (ls.need - hq) = _
        rw [commit_total]
        ring
      · rw [hc']
        show sumHours (commit ls.st rid t hq).allocs + (ls.need - hq) = _
        rw [commit_sumHours]
        ring

/-- Accounting of strategy 5's loop. -/
theorem greedyLoop_spec (rs : List Resource) (t : Int) :
    ∀ (fuel : Nat) (ls : LState), 0 ≤ ls.need →
      0 ≤ (greedyLoop rs t fuel ls).1.need ∧
      (greedyLoop rs t fuel ls).1.st.total +
          (greedyLoop rs t fuel ls).1.need = ls.st.total + ls.need ∧
      sumHours (greedyLoop rs t fuel ls).1.st.allocs +
          (greedyLoop rs t fuel ls).1.need = sumHours ls.st.allocs + ls.need := by
  intro fuel
  induction fuel with
  | zero => intro ls h; exact ⟨h, rfl, rfl⟩
  | succ n ih =>
    intro ls h
    rcases greedyStep_cases rs t ls with hd | hc | ⟨rid, hq, hqpos, hqle, _, hstep⟩
    · rw [greedyLoop_succ_done n hd]; exact ⟨h, rfl, rfl⟩
    · rw [greedyLoop_succ_cont n hc]; exact ih ls h
    · rw [greedyLoop_succ_cont n hstep]
      obtain ⟨ha, hb, hc'⟩ := ih ⟨ls.need - hq, commit ls.st rid t hq⟩
        (show (0:ℚ) ≤ ls.need - hq by linarith)
      refine ⟨ha, ?_, ?_⟩
      · rw [hb]
        show (commit ls.st rid t hq).total + (ls.need - hq) = _
        rw [commit_total]
        ring
      · rw [hc']
        show sumHours (commit ls.st rid t hq).allocs + (ls.need - hq) = _
        rw [commit_sumHours]
        ring

/-- Folding strategy 4's loop over tasks keeps the record sum below the
requirement-lookup sum. -/
theorem foldl_overload_sum_le (fuel : Nat) (rs : List Resource) (ideal : ℚ)
    (reqs : List (Int × ℚ)) (hnn : ∀ k, 0 ≤ lookupQ reqs k) :
    ∀ (ts' : List Task) (acc : AState × Bool),
      sumHours ((ts'.foldl (fun acc t =>
          let r := overloadLoop rs ideal t.id fuel ⟨lookupQ reqs t.id, acc.1⟩
          (r.1.st, acc.2 && r.2)) acc).1.allocs) ≤
        sumHours acc.1.allocs + (ts'.map (fun t => lookupQ reqs t.id)).sum := by
  intro ts'
  induction ts' with
  | nil => intro acc; simp
  | cons t rest ih =>
    intro acc
    rw [List.foldl_cons, List.map_cons, List.sum_cons]
    obtain ⟨ha, _, hs⟩ := overloadLoop_spec rs ideal t.id fuel
      ⟨lookupQ reqs t.id, acc.1⟩ (hnn t.id)
    have h1 := ih ((overloadLoop rs ideal t.id fuel ⟨lookupQ reqs t.id, acc.1⟩).1.st,
      acc.2 && (overloadLoop rs ideal t.id fuel ⟨lookupQ reqs t.id, acc.1⟩).2)
    dsimp only at h1 hs ⊢
    linarith

/-- Strategy 4 never allocates more than the total requirement. -/
theorem overloadRun_sum_le (fuel : Nat) (resources : List Resource)
    (tasks : List Task) (hn : (tasks.map Task.id).Nodup)
    (hreq : ∀ t ∈ tasks, 0 ≤ t.required_hours) :
    sumHours (overloadRun fuel resources tasks).1.allocs ≤ totalRequired tasks := by
  have h := foldl_overload_sum_le fuel resources (idealLoad resources tasks)
    (initReq tasks) (initReq_lookup_nonneg hreq) (sortByPrioritySize tasks)
    (initState resources, true)
  have hsum := sum_lookup_sorted tasks
    (fun a b =>
      decide (a.priority < b.priority ∨
        (a.priority = b.priority ∧ b.required_hours ≤ a.required_hours))) hn
  calc sumHours (overloadRun fuel resources tasks).1.allocs
      ≤ sumHours ((initState resources, true) : AState × Bool).1.allocs +
        ((sortByPrioritySize tasks).map (fun t => lookupQ (initReq tasks) t.id)).sum := h
    _ = totalRequired tasks := by
        rw [show sumHours ((initState resources, true) : AState × Bool).1.allocs = 0
          from rfl, zero_add]
        exact hsum

/-- C4 part for strategy 4: coverage is at most 1, whatever the fuel. -/
theorem coverage_overload_le_one (fuel : Nat) (resources : List Resource)
    (tasks : List Task) (hn : (tasks.map Task.id).Nodup)
    (hreq : ∀ t ∈ tasks, 0 ≤ t.required_hours) :
    coverage_overload fuel resources tasks ≤ 1 := by
  unfold coverage_overload
  split
  case isTrue hpos =>
    rw [div_le_one hpos]
    exact overloadRun_sum_le fuel resources tasks hn hreq
  case isFalse h => norm_num

/-- Folding strategy 5's loop over tasks keeps the total below the
requirement-lookup sum. -/
theorem foldl_greedy_total_le (fuel : Nat) (rs : List Resource)
    (reqs : List (Int × ℚ)) (hnn : ∀ k, 0 ≤ lookupQ reqs k) :
    ∀ (ts' : List Task) (acc : AState × Bool),
      ((ts'.foldl (fun acc t =>
          let r := greedyLoop rs t.id fuel ⟨lookupQ reqs t.id, acc.1⟩
          (r.1.st, acc.2 && r.2)) acc).1.total) ≤
        acc.1.total + (ts'.map (fun t => lookupQ reqs t.id)).sum := by
  intro ts'
  induction ts' with
  | nil => intro acc; simp
  | cons t rest ih =>
    intro acc
    rw [List.foldl_cons, List.map_cons, List.sum_cons]
    obtain ⟨ha, ht, _⟩ := greedyLoop_spec rs t.id fuel
      ⟨lookupQ reqs t.id, acc.1⟩ (hnn t.id)
    have h1 := ih ((greedyLoop rs t.id fuel ⟨lookupQ reqs t.id, acc.1⟩).1.st,
      acc.2 && (greedyLoop rs t.id fuel ⟨lookupQ reqs t.id, acc.1⟩).2)
    dsimp only at h1 ht ⊢
    linarith

/-- Strategy 5 never allocates more than the total requirement. -/
theorem greedyRun_total_le (fuel : Nat) (resources : List Resource)
    (tasks : List Task) (hn : (tasks.map Task.id).Nodup)
    (hreq : ∀ t ∈ tasks, 0 ≤ t.required_hours) :
    (greedyRun fuel resources tasks).1.total ≤ totalRequired tasks := by
  have h := foldl_greedy_total_le fuel resources (initReq tasks)
    (initReq_lookup_nonneg hreq) (sortByPrioritySize tasks) (initState resources, true)
  have hsum := sum_lookup_sorted tasks
    (fun a b =>
      decide (a.priority < b.priority ∨
        (a.priority = b.priority ∧ b.required_hours ≤ a.required_hours))) hn
  calc (greedyRun fuel resources tasks).1.total
      ≤ ((initState resources, true) : AState × Bool).1.total +
        ((sortByPrioritySize tasks).map (fun t => lookupQ (initReq tasks) t.id)).sum := h
    _ = totalRequired tasks := by
        rw [show ((initState resources, true) : AState × Bool).1.total = 0 from rfl,
          zero_add]
        exact hsum

/-- C4 part for strategy 5: coverage is at most 1, whatever the fuel. -/
theorem coverage_greedy_le_one (fuel : Nat) (resources : List Resource)
    (tasks : List Task) (hn : (tasks.map Task.id).Nodup)
    (hreq : ∀ t ∈ tasks, 0 ≤ t.required_hours) :
    coverage_greedy fuel resources tasks ≤ 1 := by
  unfold coverage_greedy
  split
  case isTrue hpos =>
    rw [div_le_one hpos]
    exact greedyRun_total_le fuel resources tasks hn hreq
  case isFalse h => norm_num

/-! ### Claim C4: coverage bounds -/

/-- C4 counterexample: on one 20-hour resource and one 10-hour task (the
contract holds: both positive) the balanced strategy commits the task's
proportional share of the whole capacity, 20 hours, so its computed coverage
is 2, exceeding 1. -/
theorem coverage_balanced_cex :
    coverage_balanced balRes balTasks = 2 ∧
      ¬ coverage_balanced balRes balTasks ≤ 1 ∧
      (∀ r ∈ balRes, 0 < r.available_hours) ∧
      (∀ t ∈ balTasks, 0 < t.required_hours) := by
  decide

/-- C4 amended: for the priority, specialization, overload-minimizing and
greedy strategies (4.1, 4.3, 4.4, 4.5), coverage never exceeds 1, because no
commitment exceeds the task's outstanding need; the balanced strategy (4.2)
is excluded — it commits up to the task's proportional share of total
capacity, which can exceed the task's need, and its coverage can exceed 1. -/
theorem coverage_le_one_except_balanced :
    ∀ (resources : List Resource) (tasks : List Task),
      (tasks.map Task.id).Nodup → (∀ t ∈ tasks, 0 ≤ t.required_hours) →
      coverage_priority resources tasks ≤ 1 ∧
      coverage_spec resources tasks ≤ 1 ∧
      (∀ fuel, coverage_overload fuel resources tasks ≤ 1) ∧
      (∀ fuel, coverage_greedy fuel resources tasks ≤ 1) := by
  intro resources tasks hn hreq
  exact ⟨coverage_priority_le_one resources tasks hn hreq,
    coverage_spec_le_one resources tasks hn hreq,
    fun fuel => coverage_overload_le_one fuel resources tasks hn hreq,
    fun fuel => coverage_greedy_le_one fuel resources tasks hn hreq⟩

/-- C4 witness: the amended bound instantiated on the concrete scenario. -/
theorem coverage_le_one_witness :
    ((demoTasks.map Task.id).Nodup ∧ (∀ t ∈ demoTasks, 0 ≤ t.required_hours)) ∧
      coverage_priority demoResources demoTasks ≤ 1 ∧
      coverage_spec demoResources demoTasks ≤ 1 ∧
      coverage_overload 20 demoResources demoTasks ≤ 1 ∧
      coverage_greedy 20 demoResources demoTasks ≤ 1 :=
  ⟨⟨by decide, by decide⟩,
    (coverage_le_one_except_balanced demoResources demoTasks (by decide) (by decide)).1,
    (coverage_le_one_except_balanced demoResources demoTasks (by decide) (by decide)).2.1,
    (coverage_le_one_except_balanced demoResources demoTasks (by decide) (by decide)).2.2.1 20,
    (coverage_le_one_except_balanced demoResources demoTasks (by decide) (by decide)).2.2.2 20⟩

/-! ### Rounding lemmas -/

/-- Rounding an integer changes nothing. -/
theorem roundHalfEven_intCast (n : Int) : roundHalfEven (n : ℚ) = n := by
  simp [roundHalfEven, Int.floor_intCast]

/-- Rounding to one decimal is idempotent. -/
theorem round1_round1 (q : ℚ) : round1 (round1 q) = round1 q := by
  unfold round1
  rw [div_mul_cancel₀ _ (by norm_num : (10:ℚ) ≠ 0), roundHalfEven_intCast]

/-- Round-to-nearest never drops below an integer lower bound. -/
theorem roundHalfEven_ge {q : ℚ} {n : Int} (h : (n:ℚ) ≤ q) : n ≤ roundHalfEven q := by
  have hf : n ≤ ⌊q⌋ := Int.le_floor.mpr h
  unfold roundHalfEven
  dsimp only
  split_ifs <;> omega

/-- Round-to-nearest-even exceeds its argument by at most one half. -/
theorem roundHalfEven_le (q : ℚ) : (roundHalfEven q : ℚ) ≤ q + 1/2 := by
  have hfl := Int.floor_le q
  have hlt := Int.lt_floor_add_one q
  unfold roundHalfEven
  dsimp only
  split_ifs with h1 h2 h3
  · push_cast
    linarith
  · push_cast
    linarith
  · push_cast
    linarith
  · push_cast
    linarith

/-- A value of at least one half keeps that bound after rounding to one
decimal. -/
theorem round1_ge_half {q : ℚ} (h : 1/2 ≤ q) : 1/2 ≤ round1 q := by
  unfold round1
  rw [le_div_iff (by norm_num : (0:ℚ) < 10)]
  have h5 : ((5:Int):ℚ) ≤ q * 10 := by push_cast; linarith
  have hr := roundHalfEven_ge h5
  have : ((5:Int):ℚ) ≤ (roundHalfEven (q * 10) : ℚ) := by exact_mod_cast hr
  push_cast at this ⊢
  linarith

/-- Rounding to one decimal adds at most 1/20. -/
theorem round1_le (q : ℚ) : round1 q ≤ q + 1/20 := by
  unfold round1
  rw [div_le_iff (by norm_num : (0:ℚ) < 10)]
  have := roundHalfEven_le (q * 10)
  linarith

/-! ### Grouping lemmas -/

/-- Bumping an absent key appends it. -/
theorem bumpPair_notmem (g : List ((Int × Int) × ℚ)) (key : Int × Int) (h : ℚ)
    (hnot : key ∉ g.map Prod.fst) : bumpPair g key h = g ++ [(key, h)] := by
  induction g with
  | nil => rfl
  | cons e rest ih =>
    obtain ⟨k, v⟩ := e
    simp only [List.map_cons, List.mem_cons] at hnot
    push_neg at hnot
    simp only [bumpPair, if_neg (Ne.symm hnot.1)]
    rw [ih hnot.2, List.cons_append]

/-- Keys after a bump: unchanged when present, appended when absent. -/
theorem bumpPair_keys (g : List ((Int × Int) × ℚ)) (key : Int × Int) (h : ℚ) :
    (bumpPair g key h).map Prod.fst =
      if key ∈ g.map Prod.fst then g.map Prod.fst
      else g.map Prod.fst ++ [key] := by
  induction g with
  | nil => simp [bumpPair]
  | cons e rest ih =>
    obtain ⟨k, v⟩ := e
    by_cases hk : k = key
    · subst hk
      simp [bumpPair]
    · simp only [bumpPair, if_neg hk, List.map_cons, ih, List.mem_cons]
      by_cases hmem : key ∈ rest.map Prod.fst
      · rw [if_pos hmem, if_pos (Or.inr hmem)]
      · rw [if_neg hmem, if_neg ?_, List.cons_append]
        rintro (hc | hc)
        · exact hk (hc.symm)
        · exact hmem hc

/-- Bumping preserves distinctness of the keys. -/
theorem bumpPair_keys_nodup (g : List ((Int × Int) × ℚ)) (key : Int × Int)
    (h : ℚ) (hn : (g.map Prod.fst).Nodup) :
    ((bumpPair g key h).map Prod.fst).Nodup := by
  rw [bumpPair_keys]
  split
  · exact hn
  · rename_i hnot
    simp [List.nodup_append, hn, hnot]

/-- The grouped dict always has distinct keys. -/
theorem groupAllocs_keys_nodup (allocs : List Allocation) :
    ((groupAllocs allocs).map Prod.fst).Nodup := by
  unfold groupAllocs
  suffices h : ∀ (g : List ((Int × Int) × ℚ)), (g.map Prod.fst).Nodup →
      ((allocs.foldl (fun g a => bumpPair g (a.resource_id, a.task_id) a.hours)
        g).map Prod.fst).Nodup by
    exact h [] (by simp)
  induction allocs with
  | nil => intro g hg; exact hg
  | cons a rest ih =>
    intro g hg
    exact ih _ (bumpPair_keys_nodup g _ a.hours hg)

/-- Grouping a record list with pairwise-distinct keys (fresh relative to the
accumulator) just appends the records. -/
theorem foldl_bump_distinct :
    ∀ (l : List Allocation) (g : List ((Int × Int) × ℚ)),
      (∀ a ∈ l, (a.resource_id, a.task_id) ∉ g.map Prod.fst) →
      (l.map (fun a => (a.resource_id, a.task_id))).Nodup →
      l.foldl (fun g a => bumpPair g (a.resource_id, a.task_id) a.hours) g =
        g ++ l.map (fun a => ((a.resource_id, a.task_id), a.hours)) := by
  intro l
  induction l with
  | nil => intro g _ _; simp
  | cons a rest ih =>
    intro g hnotin hnd
    rw [List.foldl_cons,
      bumpPair_notmem g _ _ (hnotin a (List.mem_cons_self _ _)), ih]
    · rw [List.map_cons, List.append_assoc, List.singleton_append]
    · intro b hb
      rw [List.map_append, List.mem_append]
      rintro (hbg | hba)
      · exact hnotin b (List.mem_cons_of_mem _ hb) hbg
      · have hkey : (a.resource_id, a.task_id) ∉
            rest.map (fun a => (a.resource_id, a.task_id)) :=
          (List.nodup_cons.mp hnd).1
        have hba' : (b.resource_id, b.task_id) = (a.resource_id, a.task_id) := by
          simpa using hba
        exact hkey (hba' ▸ List.mem_map_of_mem _ hb)
    · exact (List.nodup_cons.mp hnd).2

/-! ### Claim C7: normalization is idempotent -/

/-- Normalizing the records of an already-normalized alternative changes
nothing. -/
theorem normEntries_fix (allocs : List Allocation) :
    normEntries (normEntries allocs) = normEntries allocs := by
  conv_lhs => rw [normEntries]
  have hkeys :
      ((normEntries allocs).map (fun a => (a.resource_id, a.task_id))) =
        ((groupAllocs allocs).filter (fun e => decide (1/2 ≤ e.2))).map Prod.fst := by
    unfold normEntries
    rw [List.map_map]
    exact List.map_congr_left (fun e _ => Prod.mk.eta)
  have hnodup : ((normEntries allocs).map
      (fun a => (a.resource_id, a.task_id))).Nodup := by
    rw [hkeys]
    exact (groupAllocs_keys_nodup allocs).sublist
      ((List.filter_sublist (groupAllocs allocs)).map Prod.fst)
  have hgroup : groupAllocs (normEntries allocs) =
      ((groupAllocs allocs).filter (fun e => decide (1/2 ≤ e.2))).map
        (fun e => (e.1, round1 e.2)) := by
    unfold groupAllocs
    rw [foldl_bump_distinct (normEntries allocs) []
      (fun a _ => List.not_mem_nil _) hnodup]
    rw [List.nil_append]
    unfold normEntries
    rw [List.map_map]
    exact List.map_congr_left (fun e _ => by simp [Prod.mk.eta])
  rw [hgroup]
  have hfilter :
      ((((groupAllocs allocs).filter (fun e => decide (1/2 ≤ e.2))).map
        (fun e => (e.1, round1 e.2))).filter (fun e => decide (1/2 ≤ e.2))) =
      ((groupAllocs allocs).filter (fun e => decide (1/2 ≤ e.2))).map
        (fun e => (e.1, round1 e.2)) := by
    rw [List.filter_eq_self]
    intro e he
    rcases List.mem_map.mp he with ⟨e0, he0, rfl⟩
    have h0 : (1:ℚ)/2 ≤ e0.2 :=
      of_decide_eq_true (List.mem_filter.mp he0).2
    exact decide_eq_true (round1_ge_half h0)
  rw [hfilter, List.map_map]
  unfold normEntries
  exact List.map_congr_left (fun e _ => by simp [round1_round1])

/-- A normalized alternative is a fixed point of `normAlt`. -/
theorem normAlt_fix {alt alt' : Alternative} (h : normAlt alt = some alt') :
    normAlt alt' = some alt' := by
  simp only [normAlt] at h
  split at h
  · cases h
  · rename_i hne
    injection h with h
    subst h
    simp only [normAlt, normEntries_fix]
    rw [if_neg hne]

/-- C7: applying `_normalize_allocations` twice yields the same result as
applying it once. -/
theorem normalize_idempotent :
    ∀ alts, normalizeAllocations (normalizeAllocations alts) =
      normalizeAllocations alts := by
  intro alts
  unfold normalizeAllocations
  rw [List.filterMap_filterMap]
  refine List.filterMap_congr ?_
  intro a _
  cases h : normAlt a with
  | none => rfl
  | some b => exact normAlt_fix h

/-! ### Deduplication characterization (claim C5) -/

/-- When no stored alternative carries the key, the replacement pass is the
identity. -/
theorem replaceIfBetter_no_match (k : List (Int × Int × ℚ)) (alt : Alternative) :
    ∀ (es : List Alternative), (∀ e ∈ es, ¬ altKey e = k) →
      replaceIfBetter k alt es = es := by
  intro es
  induction es with
  | nil => intro _; rfl
  | cons e rest ih =>
    intro h
    have hne : ¬ (altKey e = k ∧ e.score < alt.score) :=
      fun hc => h e (List.mem_cons_self _ _) hc.1
    simp only [replaceIfBetter, if_neg hne]
    rw [ih (fun e' he' => h e' (List.mem_cons_of_mem _ he'))]

/-- The replacement pass for key `k` leaves every other key's slice alone. -/
theorem filter_replaceIfBetter_other (k k' : List (Int × Int × ℚ))
    (alt : Alternative) (hk : altKey alt = k) (hne : k' ≠ k) :
    ∀ (acc : List Alternative),
      (replaceIfBetter k alt acc).filter (fun x => decide (altKey x = k')) =
        acc.filter (fun x => decide (altKey x = k')) := by
  have hkk' : ¬ k = k' := fun hc => hne hc.symm
  intro acc
  induction acc with
  | nil => rfl
  | cons e es ih =>
    simp only [replaceIfBetter]
    split
    · rename_i hcond
      rw [List.filter_cons, List.filter_cons,
        if_neg (by simp [hk, hkk']), if_neg (by simp [hcond.1, hkk'])]
    · rw [List.filter_cons, List.filter_cons, ih]

/-- The replacement pass on a slice holding exactly one alternative for the
key keeps the better-scoring of the two. -/
theorem filter_replaceIfBetter_same (k : List (Int × Int × ℚ))
    (alt : Alternative) (hk : altKey alt = k) :
    ∀ (acc : List Alternative) (e0 : Alternative),
      acc.filter (fun x => decide (altKey x = k)) = [e0] →
      (replaceIfBetter k alt acc).filter (fun x => decide (altKey x = k)) =
        [if e0.score < alt.score then alt else e0] := by
  intro acc
  induction acc with
  | nil => intro e0 h; cases h
  | cons e es ih =>
    intro e0 hacc
    by_cases hek : altKey e = k
    · have hhead : e :: es.filter (fun x => decide (altKey x = k)) = [e0] := by
        rw [← hacc, List.filter_cons, if_pos (decide_eq_true hek)]
      have he0 : e = e0 := (List.cons.injEq _ _ _ _).mp hhead |>.1
      have hes : es.filter (fun x => decide (altKey x = k)) = [] :=
        (List.cons.injEq _ _ _ _).mp hhead |>.2
      have hes' : ∀ e' ∈ es, ¬ altKey e' = k := by
        intro e' he' hc
        have : e' ∈ es.filter (fun x => decide (altKey x = k)) :=
          List.mem_filter.mpr ⟨he', decide_eq_true hc⟩
        rw [hes] at this
        cases this
      subst he0
      by_cases hsc : e.score < alt.score
      · simp only [replaceIfBetter,
          if_pos (show altKey e = k ∧ e.score < alt.score from ⟨hek, hsc⟩)]
        rw [List.filter_cons, if_pos (decide_eq_true hk), hes, if_pos hsc]
      · have hno : ¬ (altKey e = k ∧ e.score < alt.score) := fun hc => hsc hc.2
        simp only [replaceIfBetter, if_neg hno]
        rw [List.filter_cons, if_pos (decide_eq_true hek),
          replaceIfBetter_no_match k alt es hes', hes, if_neg hsc]
    · have hacc' : es.filter (fun x => decide (altKey x = k)) = [e0] := by
        rw [← hacc, List.filter_cons, if_neg (by simpa using hek)]
      have hno : ¬ (altKey e = k ∧ e.score < alt.score) := fun hc => hek hc.1
      simp only [replaceIfBetter, if_neg hno]
      rw [List.filter_cons, if_neg (by simpa using hek), ih e0 hacc']

/-- A list of length at most one is its own optional head. -/
theorem short_filter_eq_head (l : List Alternative) (h : l.length ≤ 1) :
    l = l.head?.toList := by
  match l with
  | [] => rfl
  | [x] => rfl
  | x :: y :: _ => simp at h

/-- One unfolding of the dedup loop. -/
theorem removeDupsAux_cons (x : Alternative) (rest : List Alternative)
    (seen : List (List (Int × Int × ℚ))) (acc : List Alternative) :
    removeDupsAux (x :: rest) seen acc =
      if altKey x ∈ seen then
        removeDupsAux rest seen (replaceIfBetter (altKey x) x acc)
      else removeDupsAux rest (altKey x :: seen) (acc ++ [x]) := rfl

/-- Full characterization of the dedup loop: within each key, the slice of
the output is the running first-encountered maximum of the input's slice. -/
theorem removeDupsAux_filter (k : List (Int × Int × ℚ)) :
    ∀ (todo : List Alternative) (seen : List (List (Int × Int × ℚ)))
      (acc : List Alternative),
      (acc.filter (fun x => decide (altKey x = k))).length ≤ 1 →
      (k ∈ seen ↔ acc.filter (fun x => decide (altKey x = k)) ≠ []) →
      (removeDupsAux todo seen acc).filter (fun x => decide (altKey x = k)) =
        ((todo.filter (fun x => decide (altKey x = k))).foldl keepBetter
          (acc.filter (fun x => decide (altKey x = k))).head?).toList := by
  intro todo
  induction todo with
  | nil =>
    intro seen acc hlen _
    exact short_filter_eq_head _ hlen
  | cons x rest ih =>
    intro seen acc hlen hseen
    rw [removeDupsAux_cons]
    by_cases hxk : altKey x = k
    · subst hxk
      rw [List.filter_cons, if_pos (decide_eq_true rfl)]
      by_cases hsx : altKey x ∈ seen
      · rw [if_pos hsx]
        have hne : acc.filter (fun y => decide (altKey y = altKey x)) ≠ [] :=
          hseen.mp hsx
        obtain ⟨e0, he0⟩ :
            ∃ e0, acc.filter (fun y => decide (altKey y = altKey x)) = [e0] := by
          rcases hf : acc.filter (fun y => decide (altKey y = altKey x))
            with _ | ⟨e0, es⟩
          · exact absurd hf hne
          · rw [hf] at hlen
            match es, hlen with
            | [], _ => exact ⟨e0, rfl⟩
        have hrep := filter_replaceIfBetter_same (altKey x) x rfl acc e0 he0
        rw [ih seen (replaceIfBetter (altKey x) x acc)
          (by rw [hrep]; exact le_refl _)
          (by rw [hrep]; exact ⟨fun _ => by simp, fun _ => hsx⟩)]
        rw [hrep, he0]
        rfl
      · rw [if_neg hsx]
        have hempty : acc.filter (fun y => decide (altKey y = altKey x)) = [] := by
          by_contra hc
          exact hsx (hseen.mpr hc)
        have hfacc :
            (acc ++ [x]).filter (fun y => decide (altKey y = altKey x)) = [x] := by
          rw [List.filter_append, hempty, List.nil_append, List.filter_cons,
            if_pos (decide_eq_true rfl)]
          rfl
        rw [ih (altKey x :: seen) (acc ++ [x])
          (by rw [hfacc]; exact le_refl _)
          (by rw [hfacc];
              exact ⟨fun _ => by simp, fun _ => List.mem_cons_self _ _⟩)]
        rw [hfacc, hempty]
        rfl
    · have hdk : ¬ decide (altKey x = k) = true := by simpa using hxk
      by_cases hsx : altKey x ∈ seen
      · rw [if_pos hsx, List.filter_cons, if_neg hdk]
        have hoth := filter_replaceIfBetter_other (altKey x) k x rfl
          (fun hc => hxk hc.symm) acc
        rw [ih seen (replaceIfBetter (altKey x) x acc)
          (by rw [hoth]; exact hlen) (by rw [hoth]; exact hseen), hoth]
      · rw [if_neg hsx, List.filter_cons, if_neg hdk]
        have hfacc : (acc ++ [x]).filter (fun y => decide (altKey y = k)) =
            acc.filter (fun y => decide (altKey y = k)) := by
          rw [List.filter_append, List.filter_cons, if_neg hdk]
          simp
        rw [ih (altKey x :: seen) (acc ++ [x]) (by rw [hfacc]; exact hlen)
          (by
            rw [hfacc]
            constructor
            · intro hmem
              rcases List.mem_cons.mp hmem with hc | hc
              · exact absurd hc.symm hxk
              · exact hseen.mp hc
            · intro hne2
              exact List.mem_cons_of_mem _ (hseen.mpr hne2)), hfacc]

/-- The output of `_remove_duplicates`, restricted to one key, is exactly the
first-encountered maximum-score alternative of that key (or nothing). -/
theorem removeDuplicates_filter (l : List Alternative)
    (k : List (Int × Int × ℚ)) :
    (removeDuplicates l).filter (fun x => decide (altKey x = k)) =
      (survivor l k).toList := by
  unfold removeDuplicates survivor
  exact removeDupsAux_filter k l [] [] (by simp) (by simp)

/-- The running best-of is an element of the scanned list (or the seed). -/
theorem foldl_keepBetter_mem :
    ∀ (ms : List Alternative) (s : Option Alternative) (y : Alternative),
      ms.foldl keepBetter s = some y → y ∈ ms ∨ s = some y := by
  intro ms
  induction ms with
  | nil => intro s y h; exact Or.inr h
  | cons m rest ih =>
    intro s y h
    rw [List.foldl_cons] at h
    rcases ih (keepBetter s m) y h with hmem | hs
    · exact Or.inl (List.mem_cons_of_mem _ hmem)
    · cases s with
      | none =>
        injection hs with hs
        exact Or.inl (hs ▸ List.mem_cons_self _ _)
      | some e =>
        simp only [keepBetter] at hs
        injection hs with hs
        by_cases hsc : e.score < m.score
        · rw [if_pos hsc] at hs
          exact Or.inl (hs ▸ List.mem_cons_self _ _)
        · rw [if_neg hsc] at hs
          exact Or.inr (congrArg some hs)

/-- Every alternative surviving deduplication was one of the inputs. -/
theorem mem_removeDuplicates {l : List Alternative} {x : Alternative}
    (h : x ∈ removeDuplicates l) : x ∈ l := by
  have hx : x ∈ (removeDuplicates l).filter
      (fun y => decide (altKey y = altKey x)) :=
    List.mem_filter.mpr ⟨h, by simp⟩
  rw [removeDuplicates_filter] at hx
  cases hs : survivor l (altKey x) with
  | none => rw [hs] at hx; cases hx
  | some y =>
    rw [hs] at hx
    have hxy : x = y := by simpa using hx
    unfold survivor at hs
    rcases foldl_keepBetter_mem _ _ _ hs with hmem | hnone
    · exact hxy ▸ List.mem_of_mem_filter hmem
    · cases hnone

/-! ### Claim C5: deduplication -/

/-- C5: two alternatives are duplicates exactly when their normalized
allocation triples agree as an order-independent collection (the sorted key
lists are equal iff the triple lists are permutations); and when the
collected list holds exactly two alternatives of one key with different
scores, exactly one survives deduplication — the higher-scoring one (the
`if` keeps the first encountered on ties). -/
theorem dedup_keeps_higher_score :
    (∀ x y : Alternative, altKey x = altKey y ↔
      List.Perm
        (x.allocations.map (fun a => (a.resource_id, a.task_id, round1 a.hours)))
        (y.allocations.map (fun a => (a.resource_id, a.task_id, round1 a.hours)))) ∧
    (∀ (l : List Alternative) (a b : Alternative),
      l.filter (fun x => decide (altKey x = altKey a)) = [a, b] →
      a.score ≠ b.score →
      (removeDuplicates l).filter (fun x => decide (altKey x = altKey a)) =
        [if a.score < b.score then b else a]) := by
  constructor
  · intro x y
    constructor
    · intro hkey
      have h1 : List.Perm
          (x.allocations.map (fun a => (a.resource_id, a.task_id, round1 a.hours)))
          (altKey x) := (List.perm_insertionSort tripleLe _).symm
      rw [hkey] at h1
      exact h1.trans (List.perm_insertionSort tripleLe _)
    · intro hperm
      exact List.eq_of_perm_of_sorted
        (((List.perm_insertionSort tripleLe _).trans hperm).trans
          (List.perm_insertionSort tripleLe _).symm)
        (List.sorted_insertionSort tripleLe _)
        (List.sorted_insertionSort tripleLe _)
  · intro l a b hfilter _
    rw [removeDuplicates_filter]
    unfold survivor
    rw [hfilter]
    rfl

/-- C5 witness: two concrete duplicates with scores 1 and 2 — the
higher-scoring second one survives. -/
theorem dedup_keeps_higher_score_witness :
    ([dupA, dupB].filter (fun x => decide (altKey x = altKey dupA)) =
        [dupA, dupB] ∧ dupA.score ≠ dupB.score) ∧
      (removeDuplicates [dupA, dupB]).filter
          (fun x => decide (altKey x = altKey dupA)) =
        [if dupA.score < dupB.score then dupB else dupA] :=
  ⟨⟨by decide, by decide⟩,
    dedup_keeps_higher_score.2 [dupA, dupB] dupA dupB (by decide) (by decide)⟩

/-! ### Capacity invariant machinery (claim C3) -/

/-- Splitting a per-resource sum over an appended record. -/
theorem hoursSumRes_append (l : List Allocation) (a : Allocation) (rid : Int) :
    hoursSumRes (l ++ [a]) rid =
      hoursSumRes l rid + (if a.resource_id = rid then a.hours else 0) := by
  unfold hoursSumRes
  rw [List.filter_append, List.map_append, List.sum_append]
  congr 1
  rw [List.filter_cons]
  split
  · rename_i hcond
    rw [if_pos (of_decide_eq_true hcond)]
    simp
  · rename_i hcond
    rw [if_neg (fun hc => hcond (decide_eq_true hc))]
    simp

/-- Splitting a per-resource sum at a cons. -/
theorem hoursSumRes_cons (a : Allocation) (l : List Allocation) (rid : Int) :
    hoursSumRes (a :: l) rid =
      (if a.resource_id = rid then a.hours else 0) + hoursSumRes l rid := by
  unfold hoursSumRes
  rw [List.filter_cons]
  split
  · rename_i hcond
    rw [if_pos (of_decide_eq_true hcond)]
    simp
  · rename_i hcond
    rw [if_neg (fun hc => hcond (decide_eq_true hc))]
    simp

/-- A guarded commit preserves the capacity invariant. -/
theorem commit_CapState {resources : List Resource} {st : AState}
    (hst : CapState resources st) (rid tid : Int) {h : ℚ} (hp : 0 < h)
    (hle : h ≤ lookupQ st.hours rid) :
    CapState resources (commit st rid tid h) := by
  obtain ⟨hcap, hpos⟩ := hst
  constructor
  · intro rid'
    by_cases he : rid' = rid
    · subst he
      constructor
      · rw [show (commit st rid' tid h).hours =
            setQ st.hours rid' (lookupQ st.hours rid' - h) from rfl,
          lookupQ_setQ_same]
        linarith
      · rw [show (commit st rid' tid h).allocs = st.allocs ++ [⟨rid', tid, h⟩]
            from rfl,
          show (commit st rid' tid h).hours =
            setQ st.hours rid' (lookupQ st.hours rid' - h) from rfl,
          hoursSumRes_append, lookupQ_setQ_same]
        have := (hcap rid').2
        rw [if_pos (show (Allocation.mk rid' tid h).resource_id = rid' from rfl)]
        linarith
    · constructor
      · rw [show (commit st rid tid h).hours =
            setQ st.hours rid (lookupQ st.hours rid - h) from rfl,
          lookupQ_setQ_other _ _ _ _ he]
        exact (hcap rid').1
      · rw [show (commit st rid tid h).allocs = st.allocs ++ [⟨rid, tid, h⟩]
            from rfl,
          show (commit st rid tid h).hours =
            setQ st.hours rid (lookupQ st.hours rid - h) from rfl,
          hoursSumRes_append, lookupQ_setQ_other _ _ _ _ he]
        have := (hcap rid').2
        rw [if_neg (show ¬ (Allocation.mk rid tid h).resource_id = rid' from
          fun hc => he hc.symm)]
        linarith
  · intro a ha
    rw [show (commit st rid tid h).allocs = st.allocs ++ [⟨rid, tid, h⟩]
      from rfl] at ha
    rcases List.mem_append.mp ha with hmem | hmem
    · exact hpos a hmem
    · have : a = ⟨rid, tid, h⟩ := by simpa using hmem
      rw [this]
      exact hp

/-- The initial state satisfies the capacity invariant when every capacity is
nonnegative. -/
theorem initState_CapState (resources : List Resource)
    (hav : ∀ r ∈ resources, 0 ≤ r.available_hours) :
    CapState resources (initState resources) := by
  refine ⟨fun rid => ⟨?_, ?_⟩, fun a ha => absurd ha (List.not_mem_nil a)⟩
  · refine lookupQ_nonneg _ (fun e he => ?_) rid
    rcases foldl_setQ_mem Resource.id Resource.available_hours resources [] e he
      with h0 | ⟨r, hr, rfl⟩
    · cases h0
    · exact hav r hr
  · rw [show (initState resources).allocs = [] from rfl,
      show hoursSumRes [] rid = 0 from rfl, zero_add]
    rfl

/-- Strategy 1's walk preserves the capacity invariant. -/
theorem walkResources_CapState (tid : Int) :
    ∀ (rl : List Resource) (need : ℚ) {resources : List Resource} (st : AState),
      CapState resources st → CapState resources (walkResources tid rl need st) := by
  intro rl
  induction rl with
  | nil => intro need resources st hst; exact hst
  | cons r rest ih =>
    intro need resources st hst
    simp only [walkResources]
    split
    · exact hst
    · rename_i hneed
      split
      · rename_i hpos
        refine ih _ _ (commit_CapState hst r.id tid ?_ (min_le_right _ _))
        exact lt_min (lt_of_not_le hneed) hpos
      · exact ih _ _ hst

/-- Folding a state-transforming task walk preserves the invariant. -/
theorem foldl_CapState {resources : List Resource} {f : AState → Task → AState}
    (hf : ∀ st t, CapState resources st → CapState resources (f st t)) :
    ∀ (ts' : List Task) (st : AState), CapState resources st →
      CapState resources (ts'.foldl f st) := by
  intro ts'
  induction ts' with
  | nil => intro st hst; exact hst
  | cons t rest ih => intro st hst; exact ih _ (hf st t hst)

/-- Strategy 1's run preserves the capacity invariant. -/
theorem priorityRun_CapState (resources : List Resource) (tasks : List Task)
    (hav : ∀ r ∈ resources, 0 ≤ r.available_hours) :
    CapState resources (priorityRun resources tasks) := by
  unfold priorityRun
  exact foldl_CapState (fun st t hst => walkResources_CapState t.id resources _ st hst)
    _ _ (initState_CapState resources hav)

/-- Strategy 2's walk preserves the capacity invariant. -/
theorem balancedWalk_CapState (tid : Int) (share : ℚ) :
    ∀ (rl : List Resource) (done : ℚ) {resources : List Resource} (st : AState),
      CapState resources st → CapState resources (balancedWalk tid share rl done st) := by
  intro rl
  induction rl with
  | nil => intro done resources st hst; exact hst
  | cons r rest ih =>
    intro done resources st hst
    simp only [balancedWalk]
    split
    · exact hst
    · rename_i hdone
      split
      · rename_i hpos
        refine ih _ _ (commit_CapState hst r.id tid ?_ (min_le_right _ _))
        exact lt_min (by linarith [lt_of_not_le hdone]) hpos
      · exact ih _ _ hst

/-- Strategy 2's run preserves the capacity invariant. -/
theorem balancedRun_CapState (resources : List Resource) (tasks : List Task)
    (hav : ∀ r ∈ resources, 0 ≤ r.available_hours) :
    CapState resources (balancedRun resources tasks) := by
  unfold balancedRun
  exact foldl_CapState (fun st t hst => balancedWalk_CapState t.id _ resources _ st hst)
    _ _ (initState_CapState resources hav)

/-- Strategy 3's first pass preserves the capacity invariant. -/
theorem specWalk1_CapState (tid : Int) (suitable : List String) :
    ∀ (rl : List Resource) (need : ℚ) {resources : List Resource} (st : AState)
      (m : Nat), CapState resources st →
      CapState resources (specWalk1 tid suitable rl need st m).2.1 := by
  intro rl
  induction rl with
  | nil => intro need resources st m hst; exact hst
  | cons r rest ih =>
    intro need resources st m hst
    simp only [specWalk1]
    split
    · exact hst
    · rename_i hneed
      split
      · rename_i hpos
        refine ih _ _ _ (commit_CapState hst r.id tid ?_ (min_le_right _ _))
        exact lt_min (lt_of_not_le hneed) hpos
      · exact ih _ _ _ hst

/-- Strategy 3's second pass preserves the capacity invariant. -/
theorem specWalk2_CapState (tid : Int) (toTry : List Resource) :
    ∀ (rl : List Resource) (need : ℚ) {resources : List Resource} (st : AState),
      CapState resources st →
      CapState resources (specWalk2 tid toTry rl need st).2 := by
  intro rl
  induction rl with
  | nil => intro need resources st hst; exact hst
  | cons r rest ih =>
    intro need resources st hst
    simp only [specWalk2]
    split
    · exact hst
    · rename_i hneed
      split
      · rename_i hpos
        refine ih _ _ (commit_CapState hst r.id tid ?_ (min_le_right _ _))
        exact lt_min (lt_of_not_le hneed) hpos.1
      · exact ih _ _ hst

/-- Strategy 3's per-task step preserves the capacity invariant. -/
theorem specTask_CapState (resources : List Resource) (reqs : List (Int × ℚ))
    (stm : AState × Nat) (t : Task) (hst : CapState resources stm.1) :
    CapState resources (specTask resources reqs stm t).1 := by
  simp only [specTask]
  split
  · exact specWalk2_CapState t.id _ resources _ _
      (specWalk1_CapState t.id _ _ _ _ _ hst)
  · exact specWalk1_CapState t.id _ _ _ _ _ hst

/-- Strategy 3's run preserves the capacity invariant. -/
theorem specRun_CapState (resources : List Resource) (tasks : List Task)
    (hav : ∀ r ∈ resources, 0 ≤ r.available_hours) :
    CapState resources (specRun resources tasks).1 := by
  unfold specRun
  suffices h : ∀ (ts' : List Task) (stm : AState × Nat),
      CapState resources stm.1 →
      CapState resources (ts'.foldl (specTask resources (initReq tasks)) stm).1 by
    exact h _ _ (initState_CapState resources hav)
  intro ts'
  induction ts' with
  | nil => intro stm hst; exact hst
  | cons t rest ih =>
    intro stm hst
    exact ih _ (specTask_CapState resources _ stm t hst)

/-- Strategy 4's loop preserves the capacity invariant. -/
theorem overloadLoop_CapState (rs : List Resource) (i : ℚ) (t : Int) :
    ∀ (fuel : Nat) (ls : LState) {resources : List Resource},
      CapState resources ls.st →
      CapState resources (overloadLoop rs i t fuel ls).1.st := by
  intro fuel
  induction fuel with
  | zero => intro ls resources hst; exact hst
  | succ n ih =>
    intro ls resources hst
    rcases overloadStep_cases rs i t ls with hd | hc | ⟨rid, hq, hqpos, _, hqcap, hstep⟩
    · rw [overloadLoop_succ_done n hd]; exact hst
    · rw [overloadLoop_succ_cont n hc]; exact ih ls hst
    · rw [overloadLoop_succ_cont n hstep]
      exact ih _ (commit_CapState hst rid t hqpos hqcap)

/-- Strategy 5's loop preserves the capacity invariant. -/
theorem greedyLoop_CapState (rs : List Resource) (t : Int) :
    ∀ (fuel : Nat) (ls : LState) {resources : List Resource},
      CapState resources ls.st →
      CapState resources (greedyLoop rs t fuel ls).1.st := by
  intro fuel
  induction fuel with
  | zero => intro ls resources hst; exact hst
  | succ n ih =>
    intro ls resources hst
    rcases greedyStep_cases rs t ls with hd | hc | ⟨rid, hq, hqpos, _, hqcap, hstep⟩
    · rw [greedyLoop_succ_done n hd]; exact hst
    · rw [greedyLoop_succ_cont n hc]; exact ih ls hst
    · rw [greedyLoop_succ_cont n hstep]
      exact ih _ (commit_CapState hst rid t hqpos hqcap)

/-- Strategy 4's run preserves the capacity invariant. -/
theorem overloadRun_CapState (fuel : Nat) (resources : List Resource)
    (tasks : List Task) (hav : ∀ r ∈ resources, 0 ≤ r.available_hours) :
    CapState resources (overloadRun fuel resources tasks).1 := by
  unfold overloadRun
  suffices h : ∀ (ts' : List Task) (acc : AState × Bool),
      CapState resources acc.1 →
      CapState resources ((ts'.foldl (fun acc t =>
        let r := overloadLoop resources (idealLoad resources tasks) t.id fuel
          ⟨lookupQ (initReq tasks) t.id, acc.1⟩
        (r.1.st, acc.2 && r.2)) acc).1) by
    exact h _ _ (initState_CapState resources hav)
  intro ts'
  induction ts' with
  | nil => intro acc hst; exact hst
  | cons t rest ih =>
    intro acc hst
    exact ih _ (overloadLoop_CapState resources _ t.id fuel _ hst)

/-- Strategy 5's run preserves the capacity invariant. -/
theorem greedyRun_CapState (fuel : Nat) (resources : List Resource)
    (tasks : List Task) (hav : ∀ r ∈ resources, 0 ≤ r.available_hours) :
    CapState resources (greedyRun fuel resources tasks).1 := by
  unfold greedyRun
  suffices h : ∀ (ts' : List Task) (acc : AState × Bool),
      CapState resources acc.1 →
      CapState resources ((ts'.foldl (fun acc t =>
        let r := greedyLoop resources t.id fuel ⟨lookupQ (initReq tasks) t.id, acc.1⟩
        (r.1.st, acc.2 && r.2)) acc).1) by
    exact h _ _ (initState_CapState resources hav)
  intro ts'
  induction ts' with
  | nil => intro acc hst; exact hst
  | cons t rest ih =>
    intro acc hst
    exact ih _ (greedyLoop_CapState resources t.id fuel _ hst)

/-- From the invariant: committed sums never exceed the declared capacities
(with distinct resource ids), and all records are positive. -/
theorem CapState_bound {resources : List Resource} {st : AState}
    (hst : CapState resources st) (hn : (resources.map Resource.id).Nodup) :
    (∀ r ∈ resources, hoursSumRes st.allocs r.id ≤ r.available_hours) ∧
      ∀ a ∈ st.allocs, 0 < a.hours := by
  refine ⟨fun r hr => ?_, hst.2⟩
  have h1 := (hst.1 r.id).1
  have h2 := (hst.1 r.id).2
  rw [lookup_initHours hn hr] at h2
  linarith

/-- Every collected alternative respects capacities and has positive
records. -/
theorem collect_capacity (fuel : Nat) (resources : List Resource)
    (tasks : List Task) (hn : (resources.map Resource.id).Nodup)
    (hav : ∀ r ∈ resources, 0 ≤ r.available_hours) :
    ∀ alt ∈ collectAlternatives fuel resources tasks,
      (∀ r ∈ resources, hoursSumRes alt.allocations r.id ≤ r.available_hours) ∧
        ∀ a ∈ alt.allocations, 0 < a.hours := by
  intro alt halt
  simp only [collectAlternatives, List.mem_append, List.mem_singleton] at halt
  rcases halt with (((h1 | h2) | h3) | h4) | h5
  · rw [h1]
    exact CapState_bound (priorityRun_CapState resources tasks hav) hn
  · rw [Option.mem_toList, Option.mem_def] at h2
    unfold alt_balanced at h2
    split at h2
    · cases h2
    · injection h2 with h2
      rw [← h2]
      exact CapState_bound (balancedRun_CapState resources tasks hav) hn
  · rw [h3]
    exact CapState_bound (specRun_CapState resources tasks hav) hn
  · rw [Option.mem_toList, Option.mem_def] at h4
    unfold alt_overload at h4
    split at h4
    · cases h4
    · injection h4 with h4
      rw [← h4]
      exact CapState_bound (overloadRun_CapState fuel resources tasks hav) hn
  · rw [h5]
    exact CapState_bound (greedyRun_CapState fuel resources tasks hav) hn

/-- Per-resource group sums after one bump. -/
theorem bumpPair_sum (rid : Int) (key : Int × Int) (h : ℚ) :
    ∀ (g : List ((Int × Int) × ℚ)),
      (((bumpPair g key h).filter (fun e => e.1.1 = rid)).map Prod.snd).sum =
        ((g.filter (fun e => e.1.1 = rid)).map Prod.snd).sum +
          (if key.1 = rid then h else 0) := by
  intro g
  induction g with
  | nil =>
    by_cases hk : key.1 = rid <;> simp [bumpPair, hk]
  | cons e0 rest ih =>
    obtain ⟨k, v⟩ := e0
    by_cases hke : k = key
    · subst hke
      by_cases hk : k.1 = rid <;>
        simp [bumpPair, List.filter_cons, hk] <;> ring
    · by_cases hk : k.1 = rid <;>
        simp [bumpPair, List.filter_cons, hke, hk, ih] <;> ring

/-- Grouping preserves per-resource sums. -/
theorem groupAllocs_sum (rid : Int) (l : List Allocation) :
    (((groupAllocs l).filter (fun e => e.1.1 = rid)).map Prod.snd).sum =
      hoursSumRes l rid := by
  unfold groupAllocs
  suffices h : ∀ g,
      (((l.foldl (fun g a => bumpPair g (a.resource_id, a.task_id) a.hours)
        g).filter (fun e => e.1.1 = rid)).map Prod.snd).sum =
        ((g.filter (fun e => e.1.1 = rid)).map Prod.snd).sum +
          hoursSumRes l rid by
    simpa using h []
  induction l with
  | nil => intro g; simp [hoursSumRes]
  | cons a rest ih =>
    intro g
    rw [List.foldl_cons, ih, bumpPair_sum, hoursSumRes_cons]
    dsimp only
    ring

/-- Bumping keeps all group values nonnegative. -/
theorem bumpPair_nonneg (key : Int × Int) {h : ℚ} (hh : 0 ≤ h) :
    ∀ (g : List ((Int × Int) × ℚ)), (∀ e ∈ g, 0 ≤ e.2) →
      ∀ e ∈ bumpPair g key h, 0 ≤ e.2 := by
  intro g
  induction g with
  | nil =>
    intro _ e he
    have : e = (key, h) := by simpa [bumpPair] using he
    rw [this]
    exact hh
  | cons e0 rest ih =>
    intro hg e he
    obtain ⟨k, v⟩ := e0
    by_cases hke : k = key
    · subst hke
      simp only [bumpPair, if_pos rfl] at he
      rcases List.mem_cons.mp he with rfl | hmem
      · have := hg (k, v) (List.mem_cons_self _ _)
        simpa using add_nonneg this hh
      · exact hg e (List.mem_cons_of_mem _ hmem)
    · simp only [bumpPair, if_neg hke] at he
      rcases List.mem_cons.mp he with rfl | hmem
      · exact hg _ (List.mem_cons_self _ _)
      · exact ih (fun e' he' => hg e' (List.mem_cons_of_mem _ he')) e hmem

/-- All grouped values of a nonnegative record list are nonnegative. -/
theorem groupAllocs_nonneg {l : List Allocation}
    (hl : ∀ a ∈ l, 0 ≤ a.hours) : ∀ e ∈ groupAllocs l, 0 ≤ e.2 := by
  unfold groupAllocs
  suffices h : ∀ (l' : List Allocation), (∀ a ∈ l', 0 ≤ a.hours) →
      ∀ (g : List ((Int × Int) × ℚ)), (∀ e ∈ g, 0 ≤ e.2) →
      ∀ e ∈ l'.foldl (fun g a => bumpPair g (a.resource_id, a.task_id) a.hours) g,
        0 ≤ e.2 by
    exact h l hl [] (fun e he => absurd he (List.not_mem_nil e))
  intro l'
  induction l' with
  | nil => intro _ g hg e he; exact hg e he
  | cons a rest ih =>
    intro hl' g hg e he
    rw [List.foldl_cons] at he
    exact ih (fun a' ha' => hl' a' (List.mem_cons_of_mem _ ha'))
      (bumpPair g (a.resource_id, a.task_id) a.hours)
      (bumpPair_nonneg _ (hl' a (List.mem_cons_self _ _)) g hg) e he

/-- Dropping entries of a nonnegative list cannot increase a filtered sum. -/
theorem sum_filter_subset (rid : Int) (q : (Int × Int) × ℚ → Bool) :
    ∀ (l : List ((Int × Int) × ℚ)), (∀ e ∈ l, 0 ≤ e.2) →
      (((l.filter q).filter (fun e => e.1.1 = rid)).map Prod.snd).sum ≤
        ((l.filter (fun e => e.1.1 = rid)).map Prod.snd).sum := by
  intro l
  induction l with
  | nil => intro _; simp
  | cons e rest ih =>
    intro h
    have hrest := fun e' he' => h e' (List.mem_cons_of_mem _ he')
    by_cases hq : q e
    · by_cases hp : e.1.1 = rid
      · simp only [List.filter_cons, hq, if_true, decide_eq_true hp,
          List.map_cons, List.sum_cons]
        linarith [ih hrest]
      · simp only [List.filter_cons, hq, if_true,
          decide_eq_false hp, Bool.false_eq_true, if_false]
        exact ih hrest
    · by_cases hp : e.1.1 = rid
      · simp only [List.filter_cons, Bool.false_eq_true, if_false,
          eq_false hq, decide_eq_true hp, if_true, List.map_cons, List.sum_cons]
        have := h e (List.mem_cons_self _ _)
        linarith [ih hrest]
      · simp only [List.filter_cons, Bool.false_eq_true, if_false,
          eq_false hq, decide_eq_false hp]
        exact ih hrest

/-- Rounding each value of a list adds at most 1/20 per entry to the sum. -/
theorem sum_round1_le :
    ∀ (l : List ((Int × Int) × ℚ)),
      (l.map (fun e => round1 e.2)).sum ≤
        (l.map Prod.snd).sum + (l.length : ℚ) * (1/20) := by
  intro l
  induction l with
  | nil => simp
  | cons e rest ih =>
    simp only [List.map_cons, List.sum_cons, List.length_cons]
    have := round1_le e.2
    push_cast
    linarith

/-- Normalizing one alternative's records exceeds the raw per-resource sum by
at most 1/20 per surviving record. -/
theorem normEntries_capacity (raw : List Allocation) (rid : Int)
    (hpos : ∀ a ∈ raw, 0 < a.hours) :
    hoursSumRes (normEntries raw) rid ≤ hoursSumRes raw rid +
      (((normEntries raw).filter (fun a => a.resource_id = rid)).length : ℚ) *
        (1/20) := by
  have hnn : ∀ e ∈ groupAllocs raw, 0 ≤ e.2 :=
    groupAllocs_nonneg (fun a ha => le_of_lt (hpos a ha))
  have hfm : (normEntries raw).filter (fun a => a.resource_id = rid) =
      (((groupAllocs raw).filter (fun e => decide (1/2 ≤ e.2))).filter
        (fun e => e.1.1 = rid)).map (fun e => ⟨e.1.1, e.1.2, round1 e.2⟩) := by
    unfold normEntries
    rw [List.filter_map]
    congr 1
  have hsum : hoursSumRes (normEntries raw) rid =
      (((((groupAllocs raw).filter (fun e => decide (1/2 ≤ e.2))).filter
        (fun e => e.1.1 = rid))).map (fun e => round1 e.2)).sum := by
    unfold hoursSumRes
    rw [hfm, List.map_map]
    rfl
  rw [hsum, hfm, List.length_map]
  have h1 := sum_round1_le
    (((groupAllocs raw).filter (fun e => decide (1/2 ≤ e.2))).filter
      (fun e => e.1.1 = rid))
  have h2 := sum_filter_subset rid (fun e => decide (1/2 ≤ e.2))
    (groupAllocs raw) hnn
  rw [groupAllocs_sum] at h2
  linarith

/-- Every normalized alternative's records come from some input alternative. -/
theorem mem_normalizeAllocations {alts : List Alternative} {alt' : Alternative}
    (h : alt' ∈ normalizeAllocations alts) :
    ∃ alt ∈ alts, alt'.allocations = normEntries alt.allocations := by
  rcases List.mem_filterMap.mp h with ⟨alt, halt, hsome⟩
  simp only [normAlt] at hsome
  split at hsome
  · cases hsome
  · injection hsome with hsome
    exact ⟨alt, halt, by rw [← hsome]⟩

/-! ### Claim C3: the capacity invariant -/

/-- C3 counterexample: on one 0.55-hour resource and one 0.55-hour task
(contract satisfied), the produced alternative allocates a rounded 0.6 hours
of that resource — the claimed capacity invariant fails on the engine's
output. -/
theorem capacity_invariant_cex :
    capacityOK capRes (generate_alternatives 20 capRes capTasks) = false ∧
      (∀ r ∈ capRes, 0 < r.available_hours) ∧
      (∀ t ∈ capTasks, 0 < t.required_hours) := by
  decide

/-- C3 amended: before normalization the invariant holds exactly — for every
strategy and every deduplicated alternative, each resource's committed sum is
at most its `available_hours`; the final output of `generate_alternatives`
keeps it only up to rounding: each resource's sum exceeds its capacity by at
most 0.05 hours per merged allocation record of that resource. -/
theorem capacity_invariant_with_rounding :
    ∀ (fuel : Nat) (resources : List Resource) (tasks : List Task),
      (resources.map Resource.id).Nodup →
      (∀ r ∈ resources, 0 ≤ r.available_hours) →
      (∀ alt ∈ removeDuplicates (collectAlternatives fuel resources tasks),
        ∀ r ∈ resources, hoursSumRes alt.allocations r.id ≤ r.available_hours) ∧
      (∀ alt ∈ generate_alternatives fuel resources tasks,
        ∀ r ∈ resources, hoursSumRes alt.allocations r.id ≤ r.available_hours +
          ((alt.allocations.filter (fun a => a.resource_id = r.id)).length : ℚ) *
            (1/20)) := by
  intro fuel resources tasks hn hav
  constructor
  · intro alt halt r hr
    exact (collect_capacity fuel resources tasks hn hav alt
      (mem_removeDuplicates halt)).1 r hr
  · intro alt halt r hr
    unfold generate_alternatives at halt
    split at halt
    · cases halt
    · have h1 : alt ∈ normalizeAllocations (removeDuplicates
          (collectAlternatives fuel resources tasks)) :=
        (stableSort_perm _ _).mem_iff.mp halt
      rcases mem_normalizeAllocations h1 with ⟨alt0, halt0, heq⟩
      obtain ⟨hcap0, hpos0⟩ := collect_capacity fuel resources tasks hn hav alt0
        (mem_removeDuplicates halt0)
      rw [heq]
      have hb := normEntries_capacity alt0.allocations r.id hpos0
      have hc := hcap0 r hr
      linarith

/-- C3 witness: the amended pre-normalization invariant instantiated on the
concrete scenario. -/
theorem capacity_invariant_witness :
    ((demoResources.map Resource.id).Nodup ∧
      (∀ r ∈ demoResources, 0 ≤ r.available_hours)) ∧
      (∀ alt ∈ removeDuplicates (collectAlternatives 20 demoResources demoTasks),
        ∀ r ∈ demoResources,
          hoursSumRes alt.allocations r.id ≤ r.available_hours) :=
  ⟨⟨by decide, by decide⟩,
    (capacity_invariant_with_rounding 20 demoResources demoTasks
      (by decide) (by decide)).1⟩

/-! ### Claim C10: output sort order -/

/-- C10: the sequence returned by `generate_alternatives` is sorted by score
descending (every element's score dominates every later one's), and the final
sort stage is stable — it preserves each equal-score slice of the
deduplicated, normalized list verbatim, so ties keep the order produced by
the preceding stable stages. -/
theorem generate_sorted_by_score_desc :
    (∀ (fuel : Nat) (resources : List Resource) (tasks : List Task),
      (generate_alternatives fuel resources tasks).Pairwise
        (fun a b => b.score ≤ a.score)) ∧
    (∀ (alts : List Alternative) (c : ℚ),
      (sortByScoreDesc alts).filter (fun a => decide (a.score = c)) =
        alts.filter (fun a => decide (a.score = c))) := by
  constructor
  · intro fuel resources tasks
    unfold generate_alternatives
    split
    · simp
    · exact pairwise_sortByScoreDesc _
  · exact filter_sortByScoreDesc

end DSS
